import Mathlib

/-!
Verification of the simple-proxy streaming edge proxy.

Strings from the TypeScript source are modelled as lists of characters
(`Str`), byte payloads (`Uint8Array`/`Buffer`) as lists of naturals below
256, and JavaScript numbers as `Int`/`Nat` (all numbers involved are
integral and small enough that IEEE-754 rounding never occurs on them).
External library calls (zlib's `gzip`/`gunzip`, `encodeURIComponent`,
`JSON.stringify`, the WHATWG `URL` parser) are either taken as explicit
function parameters or, where a claim needs a concrete instance, modelled
from the specification and marked as such in their doc comment.
-/

namespace SimpleProxy

/-- A JavaScript string, modelled as its list of characters. -/
abbrev Str := List Char

/-! ## Generic string helpers -/

/-- `p` is a prefix of `l` (JS `String.startsWith`). -/
def begins (p l : Str) : Bool :=
  match p, l with
  | [], _ => true
  | _ :: _, [] => false
  | a :: ps, b :: ls => a = b && begins ps ls

/-- Case-insensitive prefix test (for `/i` regexes; the pattern `p` is
given in lowercase). -/
def beginsCI (p l : Str) : Bool :=
  match p, l with
  | [], _ => true
  | _ :: _, [] => false
  | a :: ps, b :: ls => a = b.toLower && beginsCI ps ls

/-- Index of the first occurrence of `t` as a contiguous substring of `l`
(JS `String.indexOf`). -/
def indexOfSub (l t : Str) : Option Nat :=
  match l with
  | [] => if t.isEmpty then some 0 else none
  | _ :: rest =>
    if begins t l then some 0
    else (indexOfSub rest t).map (fun i => i + 1)

/-- Substring containment (JS `String.includes`). -/
def containsSub (l t : Str) : Bool :=
  (indexOfSub l t).isSome

/-- Replace the first occurrence of `t` in `l` by `r` (JS
`String.replace` with a plain string pattern and a replacement containing
no `$` patterns). -/
def replaceFirst (l t r : Str) : Str :=
  match indexOfSub l t with
  | none => l
  | some i => l.take i ++ r ++ l.drop (i + t.length)

/-- Split at every occurrence of the character `c` (JS `String.split`
with a one-character separator). Always returns a non-empty list. -/
def splitOnChar (c : Char) (l : Str) : List Str :=
  match l with
  | [] => [[]]
  | a :: rest =>
    match splitOnChar c rest with
    | h :: t => if a = c then [] :: h :: t else (a :: h) :: t
    | [] => [[a]]

/-- Split a text into its lines (the source splits on `"\n"`). -/
def splitNL (l : Str) : List Str := splitOnChar '\n' l

/-- Join a list of strings with the separator character `c`
(JS `Array.join`). -/
def joinC (c : Char) : List Str → Str
  | [] => []
  | [x] => x
  | x :: xs => x ++ c :: joinC c xs

/-- Join lines with `"\n"` (JS `Array.join("\n")`). -/
def joinNL (ls : List Str) : Str := joinC '\n' ls

/-- JS truthiness of `line.trim()`: true iff the line contains a
non-whitespace character. -/
def trimNonEmpty (l : Str) : Bool :=
  l.any (fun c => !c.isWhitespace)

/-- Value of a non-empty digit string (JS `parseInt(s, 10)` on an
all-digit string). -/
def natOfDigits (s : Str) : Nat :=
  s.foldl (fun n c => n * 10 + (c.toNat - 48)) 0

/-- Decimal rendering of a natural (JS number-to-string coercion). -/
def natRepr (n : Nat) : Str := (Nat.repr n).data

/-! ## Base64 (Node `Buffer.toString('base64')` / `Buffer.from(_, 'base64')`) -/

/-- The standard base64 alphabet. -/
def b64Alphabet : Str :=
  "ABCDEFGHIJKLMNOPQRSTUVWXYZabcdefghijklmnopqrstuvwxyz0123456789+/".data

/-- Character for a 6-bit group. -/
def b64Char (n : Nat) : Char := b64Alphabet.getD n '?'

/-- Index of a character in the base64 alphabet. -/
def b64Index (c : Char) : Nat := b64Alphabet.findIdx (fun d => d = c)

/-- Standard base64 encoding of a byte sequence, with `=` padding. -/
def b64encode : List Nat → Str
  | [] => []
  | [a] => [b64Char (a / 4), b64Char (a % 4 * 16), '=', '=']
  | [a, b] => [b64Char (a / 4), b64Char (a % 4 * 16 + b / 16), b64Char (b % 16 * 4), '=']
  | a :: b :: c :: rest =>
    b64Char (a / 4) :: b64Char (a % 4 * 16 + b / 16) ::
    b64Char (b % 16 * 4 + c / 64) :: b64Char (c % 64) :: b64encode rest

/-- Standard base64 decoding (on well-formed input). -/
def b64decode : Str → List Nat
  | c1 :: c2 :: c3 :: c4 :: rest =>
    if c3 = '=' then [b64Index c1 * 4 + b64Index c2 / 16]
    else if c4 = '=' then
      [b64Index c1 * 4 + b64Index c2 / 16, b64Index c2 % 16 * 16 + b64Index c3 / 4]
    else
      (b64Index c1 * 4 + b64Index c2 / 16) ::
      (b64Index c2 % 16 * 16 + b64Index c3 / 4) ::
      (b64Index c3 % 4 * 64 + b64Index c4) :: b64decode rest
  | _ => []

/-- Bytes of a string (Node `Buffer.from(s)`; UTF-8 agrees with the char
code for the ASCII strings the claims quantify over). -/
def strBytes (s : Str) : List Nat := s.map Char.toNat

/-- String from a byte sequence (Node `Buffer.toString('utf-8')` on
ASCII bytes). -/
def bytesToStr (l : List Nat) : Str := l.map Char.ofNat

/-! ## Range Negotiator (`parseRangeHeader` in `s.ts` and the MP4 route) -/

/-- The anchored regex `/^bytes=(\d*)-(\d*)$/`: the header must be
`bytes=` followed by digits, one `-`, and digits (either digit group
possibly empty); returns the two capture groups. -/
def matchBytesRange (h : Str) : Option (Str × Str) :=
  if begins "bytes=".data h then
    match splitOnChar '-' (h.drop 6) with
    | [s, e] =>
      if s.all (fun c => c.isDigit) && e.all (fun c => c.isDigit) then some (s, e) else none
    | _ => none
  else none

/-- `parseRangeHeader` from `src/routes/s.ts` (identical copy in the MP4
route): parses an HTTP `Range` header against a content length. -/
def parseRangeHeader (rangeHeader : Str) (contentLength : Int) : Option (Int × Int) :=
  match matchBytesRange rangeHeader with
  | none => none
  | some (startStr, endStr) =>
    let start : Int := if startStr.isEmpty then 0 else (natOfDigits startStr : Int)
    let e : Int := if endStr.isEmpty then contentLength - 1 else (natOfDigits endStr : Int)
    let p : Int × Int :=
      if startStr.isEmpty && !endStr.isEmpty then
        (max 0 (contentLength - e), contentLength - 1)
      else (start, e)
    if p.1 ≥ contentLength ∨ p.2 ≥ contentLength ∨ p.1 > p.2 then none else some p

/-- The specification's reference definition of the range parser,
written from the spec's words: the single form `bytes=<start>-<end>`
with either side optionally empty; `bytes=N-M` gives `(N, M)`,
`bytes=N-` gives `(N, L-1)`, `bytes=-N` gives `(max 0 (L-N), L-1)`;
invalid (`none`) when the computed start or end reaches `L` or start
exceeds end.  The form with both sides empty is not enumerated by the
spec and is mapped to `none` here; the theorems for C1 exclude it and
C10 settles it separately. -/
def parseRangeSpec (rangeHeader : Str) (contentLength : Int) : Option (Int × Int) :=
  match matchBytesRange rangeHeader with
  | none => none
  | some (ns, ms) =>
    if ns.isEmpty && ms.isEmpty then none
    else
      let p : Int × Int :=
        if !ns.isEmpty && !ms.isEmpty then ((natOfDigits ns : Int), (natOfDigits ms : Int))
        else if !ns.isEmpty then ((natOfDigits ns : Int), contentLength - 1)
        else (max 0 (contentLength - (natOfDigits ms : Int)), contentLength - 1)
      if p.1 ≥ contentLength ∨ p.2 ≥ contentLength ∨ p.1 > p.2 then none else some p

/-! ## Chunked Delivery Engine: `MP4ChunkManager.generateManifest` -/

/-- `MP4ChunkInfo` from the chunk manager (`end` is a Lean keyword and is
rendered `endByte`). -/
structure MP4ChunkInfo where
  index : Nat
  start : Nat
  endByte : Nat
  size : Nat
  url : Str
deriving DecidableEq

/-- `MP4Manifest` from the chunk manager.  The `headers` record field holds
the already URI-encoded JSON header map (`encodeURIComponent(JSON.stringify
(headers))`), which the manager only ever threads through unchanged. -/
structure MP4Manifest where
  url : Str
  totalSize : Nat
  chunkSize : Nat
  totalChunks : Nat
  chunks : List MP4ChunkInfo
  headersEnc : Str

/-- `DEFAULT_CHUNK_SIZE = 256 * 1024` from the chunk manager. -/
def DEFAULT_CHUNK_SIZE : Nat := 256 * 1024

/-- `MP4ChunkManager.getChunkUrl`, with `encodeURIComponent` passed in as
`encF` and the encoded header JSON as `headersEnc`. -/
def getChunkUrl (encF : Str → Str) (url : Str) (chunkIndex : Nat) (headersEnc : Str) : Str :=
  "/mp4-proxy?url=".data ++ encF url ++ "&chunk=".data ++ natRepr chunkIndex ++
  "&headers=".data ++ headersEnc

/-- `MP4ChunkManager.generateManifest`: `Math.ceil(totalSize / chunkSize)`
on positive integers is `(totalSize + chunkSize - 1) / chunkSize`; each chunk
`i` spans `[i * chunkSize, min (i * chunkSize + chunkSize - 1) (totalSize - 1)]`. -/
def generateManifest (encF : Str → Str) (url : Str) (totalSize : Nat)
    (headersEnc : Str) (chunkSize : Nat) : MP4Manifest :=
  let totalChunks := (totalSize + chunkSize - 1) / chunkSize
  let chunks := (List.range totalChunks).map (fun i =>
    let start := i * chunkSize
    let e := min (start + chunkSize - 1) (totalSize - 1)
    { index := i, start := start, endByte := e, size := e - start + 1,
      url := getChunkUrl encF url i headersEnc })
  { url := url, totalSize := totalSize, chunkSize := chunkSize,
    totalChunks := totalChunks, chunks := chunks, headersEnc := headersEnc }

/-! ## Warm tier: `RedisCache` (`src/utils/redis-cache.ts`)

Payload bytes are `List Nat` (values below 256 for real byte arrays).
zlib's `gzip`/`gunzip` are external library functions and are passed in as
parameters (`gzipF`; `gunzipF` returns `none` when decompression throws).
The JSON (de)serialization of the envelope is modelled as the identity on
the parsed `CacheStorageFormat` record. -/

/-- `CacheEntry` from `redis-cache.ts` (also the shape cached by the
segment route). -/
structure CacheEntry where
  data : List Nat
  headers : List (String × String)
  timestamp : Int
deriving DecidableEq

/-- `CacheStorageFormat`: the warm-tier wire envelope; `data` is a base64
string, `version` is `some 2` for compressed, `some 1`/`none` for legacy. -/
structure CacheStorageFormat where
  data : Str
  headers : List (String × String)
  timestamp : Int
  version : Option Nat
deriving DecidableEq

/-- The decoding half of `RedisCache.get` (and `getMP4Chunk`), applied to a
fetched-and-parsed envelope: base64-decode `data`, gunzip exactly when
`version === 2`, return the entry (`none` models the catch-all error path
when decompression fails). -/
def redisGetDecode (gunzipF : List Nat → Option (List Nat))
    (parsed : CacheStorageFormat) : Option CacheEntry :=
  let rawData := b64decode parsed.data
  match parsed.version with
  | some 2 =>
    match gunzipF rawData with
    | some finalData => some ⟨finalData, parsed.headers, parsed.timestamp⟩
    | none => none
  | _ => some ⟨rawData, parsed.headers, parsed.timestamp⟩

/-- The encoding half of `RedisCache.set` (and `setMP4Chunk`): gzip the
payload, base64-encode it, and wrap it in a `version = 2` envelope. -/
def redisSetEncode (gzipF : List Nat → List Nat) (entry : CacheEntry) :
    CacheStorageFormat :=
  { data := b64encode (gzipF entry.data), headers := entry.headers,
    timestamp := entry.timestamp, version := some 2 }

/-- `getCacheKey`: `ts_segment:` plus the base64 of the URL bytes. -/
def getCacheKey (url : Str) : Str :=
  "ts_segment:".data ++ b64encode (strBytes url)

/-- Key lookup in an association list (a JS `Map.get` over the modelled
store). -/
def lookupKey {α : Type} (st : List (Str × α)) (k : Str) : Option α :=
  (st.find? (fun p => p.1 = k)).map Prod.snd

/-- JS `Map.set`: overwrite in place if the key is present (keeping its
position), otherwise append. -/
def mapSetK {α : Type} (st : List (Str × α)) (k : Str) (v : α) : List (Str × α) :=
  if (lookupKey st k).isSome then
    st.map (fun p => if p.1 = k then (k, v) else p)
  else st ++ [(k, v)]

/-- JS `Map.delete`. -/
def deleteK {α : Type} (st : List (Str × α)) (k : Str) : List (Str × α) :=
  st.filter (fun p => !(p.1 = k : Bool))

/-- The `RedisCache` connection state and remote store, with the
`redisEnabled` configuration bit captured at construction. -/
structure RedisCacheModel where
  redisEnabled : Bool
  isConnected : Bool
  store : List (Str × CacheStorageFormat)

/-- `RedisCache.isCacheDisabled()`:
`config.DISABLE_CACHE || !this.redisEnabled || !this.isConnected`. -/
def isCacheDisabled (disableCacheFlag : Bool) (rc : RedisCacheModel) : Bool :=
  disableCacheFlag || !rc.redisEnabled || !rc.isConnected

/-- `RedisCache.get(url)`: returns `null` when not connected, otherwise
fetches the envelope under `getCacheKey url` and decodes it.  Note that the
method itself never consults `config.DISABLE_CACHE`. -/
def redisGet (gunzipF : List Nat → Option (List Nat)) (rc : RedisCacheModel)
    (url : Str) : Option CacheEntry :=
  if !rc.isConnected then none
  else
    match lookupKey rc.store (getCacheKey url) with
    | none => none
    | some envelope => redisGetDecode gunzipF envelope

/-- `RedisCache.set(url, entry)`: no-op when not connected, otherwise
store the compressed `version = 2` envelope under `getCacheKey url`
(the server-side TTL of `setEx` is not part of the modelled state).
The method itself never consults `config.DISABLE_CACHE`. -/
def redisSet (gzipF : List Nat → List Nat) (rc : RedisCacheModel)
    (url : Str) (entry : CacheEntry) : RedisCacheModel :=
  if !rc.isConnected then rc
  else { rc with store := mapSetK rc.store (getCacheKey url) (redisSetEncode gzipF entry) }

/-- `RedisCache.delete(url)`: no-op when not connected, otherwise remove
the key.  The method itself never consults `config.DISABLE_CACHE`. -/
def redisDelete (rc : RedisCacheModel) (url : Str) : RedisCacheModel :=
  if !rc.isConnected then rc
  else { rc with store := deleteK rc.store (getCacheKey url) }

/-- The warm-tier read as performed by the segment route (`s.ts`): the
call to `redisCache.get` is guarded by `!isCacheDisabled()`. -/
def guardedRedisGet (disableCacheFlag : Bool) (gunzipF : List Nat → Option (List Nat))
    (rc : RedisCacheModel) (url : Str) : Option CacheEntry :=
  if isCacheDisabled disableCacheFlag rc then none
  else redisGet gunzipF rc url

/-- The warm-tier write as performed by the segment route (`s.ts`): guarded
by `!isCacheDisabled()`, and store-only-if-absent (the route re-checks
presence via `redisCache.get` before writing). -/
def guardedRedisWrite (disableCacheFlag : Bool)
    (gzipF : List Nat → List Nat) (gunzipF : List Nat → Option (List Nat))
    (rc : RedisCacheModel) (url : Str) (entry : CacheEntry) : RedisCacheModel :=
  if isCacheDisabled disableCacheFlag rc then rc
  else
    match redisGet gunzipF rc url with
    | some _ => rc
    | none => redisSet gzipF rc url entry

/-- Concrete store for the C9 counterexample: a connected client whose
store holds one legacy (`version` absent) envelope for the URL `"u"`. -/
def rcCex : RedisCacheModel :=
  { redisEnabled := true, isConnected := true,
    store := [(getCacheKey "u".data,
      { data := b64encode [7], headers := [], timestamp := 0, version := none })] }

/-! ## Hot tier: in-process segment / MP4-chunk caches

`m3u8-proxy.ts` keeps a `Map` with `CACHE_MAX_SIZE = 2000` and
`CACHE_EXPIRY_MS = 2h`; the MP4-chunk route keeps a `Map` of range-keyed
entries with `CACHE_MAX_SIZE = 500` and `CACHE_EXPIRY_MS = 4h`.  Both share
identical `cleanupCache`/`get` code, modelled once, generically in the entry
type (with its timestamp projection) and in the two constants.  A JS `Map`
is modelled as an association list in insertion order (`Map.set` of an
existing key keeps its position; `Array.from(map.entries())` enumerates in
that order; `Array.prototype.sort` is stable, modelled by `mergeSort`). -/

/-- `CacheEntry` of the MP4-chunk route, which also records the byte range
the chunk represents. -/
structure CacheEntryMP4 where
  data : List Nat
  headers : List (String × String)
  timestamp : Int
  range : Str
deriving DecidableEq

/-- `CACHE_MAX_SIZE` of the m3u8 segment cache. -/
def CACHE_MAX_SIZE_M3U8 : Nat := 2000

/-- `CACHE_EXPIRY_MS` of the m3u8 segment cache (2 hours). -/
def CACHE_EXPIRY_MS_M3U8 : Int := 2 * 60 * 60 * 1000

/-- `CACHE_MAX_SIZE` of the MP4-chunk cache. -/
def CACHE_MAX_SIZE_MP4 : Nat := 500

/-- `CACHE_EXPIRY_MS` of the MP4-chunk cache (4 hours). -/
def CACHE_EXPIRY_MS_MP4 : Int := 4 * 60 * 60 * 1000

/-- First phase of `cleanupCache`: delete every entry whose age exceeds
`expiry` (an entry survives iff `now - timestamp ≤ expiry`). -/
def expireFilter {α : Type} (tsOf : α → Int) (expiry : Int) (now : Int)
    (st : List (Str × α)) : List (Str × α) :=
  st.filter (fun p => decide (now - tsOf p.2 ≤ expiry))

/-- Second phase of `cleanupCache`: if the map still holds more than
`maxSize` entries, sort them by ascending timestamp (stably, as
`Array.prototype.sort` is) and delete the keys of the first
`size - maxSize` of them. -/
def capTrim {α : Type} (tsOf : α → Int) (maxSize : Nat)
    (alive : List (Str × α)) : List (Str × α) :=
  if alive.length > maxSize then
    let toRemove :=
      ((alive.mergeSort (fun p q => decide (tsOf p.2 ≤ tsOf q.2))).take
        (alive.length - maxSize)).map Prod.fst
    alive.filter (fun p => !decide (p.1 ∈ toRemove))
  else alive

/-- `cleanupCache` (identical in `m3u8-proxy.ts` and the MP4-chunk route):
expiry sweep followed by the capacity trim. -/
def cleanupCacheG {α : Type} (tsOf : α → Int) (expiry : Int) (maxSize : Nat)
    (now : Int) (st : List (Str × α)) : List (Str × α) :=
  capTrim tsOf maxSize (expireFilter tsOf expiry now st)

/-- `getCachedSegment` / `getCachedChunk` shape: miss immediately when the
cache is disabled; otherwise look the key up, evicting and missing when the
entry's age exceeds `expiry`, and returning it (with the map unchanged)
otherwise. -/
def getCachedG {α : Type} (tsOf : α → Int) (expiry : Int) (disabled : Bool)
    (now : Int) (st : List (Str × α)) (key : Str) :
    Option α × List (Str × α) :=
  if disabled then (none, st)
  else
    match lookupKey st key with
    | some entry =>
      if now - tsOf entry > expiry then (none, deleteK st key)
      else (some entry, st)
    | none => (none, st)

/-- `getCachedSegment` from `m3u8-proxy.ts` (keyed by URL, 2-hour TTL);
the pair also returns the possibly-mutated map. -/
def getCachedSegment (disabled : Bool) (now : Int)
    (st : List (Str × CacheEntry)) (url : Str) :
    Option CacheEntry × List (Str × CacheEntry) :=
  getCachedG CacheEntry.timestamp CACHE_EXPIRY_MS_M3U8 disabled now st url

/-- `getCachedChunk` from the MP4-chunk route (keyed by `url:range`,
4-hour TTL). -/
def getCachedChunk (disabled : Bool) (now : Int)
    (st : List (Str × CacheEntryMP4)) (url range : Str) :
    Option CacheEntryMP4 × List (Str × CacheEntryMP4) :=
  getCachedG CacheEntryMP4.timestamp CACHE_EXPIRY_MS_MP4 disabled now st
    (url ++ ':' :: range)

/-- The cache mutation performed by `prefetchMP4Chunk`: return untouched
when the cache is disabled; run `cleanupCache` when the map is at or above
capacity; skip the fetch when a fresh entry already exists; otherwise store
the fetched entry (`fetched = none` models a failed upstream fetch, which
stores nothing). -/
def prefetchStoreG {α : Type} (tsOf : α → Int) (expiry : Int) (maxSize : Nat)
    (disabled : Bool) (now : Int) (st : List (Str × α)) (cacheKey : Str)
    (fetched : Option α) : List (Str × α) :=
  if disabled then st
  else
    let st1 := if st.length ≥ maxSize then cleanupCacheG tsOf expiry maxSize now st else st
    match lookupKey st1 cacheKey with
    | some existing =>
      if now - tsOf existing ≤ expiry then st1
      else
        match fetched with
        | some e => mapSetK st1 cacheKey e
        | none => st1
    | none =>
      match fetched with
      | some e => mapSetK st1 cacheKey e
      | none => st1

/-- `prefetchMP4Chunk`'s cache mutation at the MP4-chunk constants. -/
def prefetchMP4ChunkStore (disabled : Bool) (now : Int)
    (st : List (Str × CacheEntryMP4)) (cacheKey : Str)
    (fetched : Option CacheEntryMP4) : List (Str × CacheEntryMP4) :=
  prefetchStoreG CacheEntryMP4.timestamp CACHE_EXPIRY_MS_MP4 CACHE_MAX_SIZE_MP4
    disabled now st cacheKey fetched

/-- One hot-tier event: a `set` (the store step of `prefetchMP4Chunk`,
which inserts or overwrites) or a `sweep` (a periodic `cleanupCache` run). -/
inductive CacheOp (α : Type) where
  | set (now : Int) (key : Str) (fetched : Option α)
  | sweep (now : Int)

/-- Apply one hot-tier event (with the cache enabled). -/
def applyOp {α : Type} (tsOf : α → Int) (expiry : Int) (maxSize : Nat)
    (st : List (Str × α)) : CacheOp α → List (Str × α)
  | CacheOp.set now key fetched =>
      prefetchStoreG tsOf expiry maxSize false now st key fetched
  | CacheOp.sweep now => cleanupCacheG tsOf expiry maxSize now st

/-- Apply a finite sequence of hot-tier events. -/
def applyOps {α : Type} (tsOf : α → Int) (expiry : Int) (maxSize : Nat)
    (ops : List (CacheOp α)) (st : List (Str × α)) : List (Str × α) :=
  ops.foldl (applyOp tsOf expiry maxSize) st

/-- Hot-tier event application at the MP4-chunk constants. -/
def applyOpsMP4 (ops : List (CacheOp CacheEntryMP4))
    (st : List (Str × CacheEntryMP4)) : List (Str × CacheEntryMP4) :=
  applyOps CacheEntryMP4.timestamp CACHE_EXPIRY_MS_MP4 CACHE_MAX_SIZE_MP4 ops st

/-- Distinct keys for the C3 counterexample. -/
def akey (i : Nat) : Str := List.replicate i 'a'

/-- A fresh (timestamp 0) entry for the C3 counterexample. -/
def centry : CacheEntryMP4 := { data := [], headers := [], timestamp := 0, range := [] }

/-- The C3 counterexample event sequence: 501 `set`s with distinct keys,
all at time 0. -/
def cexOps : List (CacheOp CacheEntryMP4) :=
  (List.range 501).map (fun i => CacheOp.set 0 (akey i) (some centry))

/-- A concrete two-entry MP4-chunk map for the C3 witness (keys `a`/`b`,
timestamps 5 and 3). -/
def wstC3 : List (Str × CacheEntryMP4) :=
  [("a".data, { data := [], headers := [], timestamp := 5, range := [] }),
   ("b".data, { data := [], headers := [], timestamp := 3, range := [] })]

/-! ## URL Resolver without a base (`parseURL` in `m3u8-proxy.ts` / `s.ts`)

`parseURL(req_url)` (no base) first runs the anchored, case-insensitive
regex

  `^(?:(https?:)?\/\/)?(([^\/?]+?)(?::(\d{0,5})(?=[\/?]|$))?)([\/?][\S\s]*|$)`

whose backtracking behaviour on a whole input reduces to: consume an
optional `http://`/`https://`/`//` prefix (falling back to no prefix when
the host part after it would be empty), then a non-empty host segment of
non-`/`,`?` characters, optionally capturing a trailing `:` + 0–5 digit
port (group 4) at the segment's end.  The strict WHATWG `URL` parser the
function then delegates to is a platform facility and is passed in as the
parameter `sp` (returning `none` when `new URL` throws). -/

/-- Result of a successful strict `new URL(...)` parse: its `href` and
`hostname`. -/
structure URLRec where
  href : Str
  hostname : Str

/-- The host segment: maximal run of characters other than `/` and `?`. -/
def takeSeg (r : Str) : Str :=
  r.takeWhile (fun c => c ≠ '/' && c ≠ '?')

/-- Group 4 of the regex: the digits of a trailing `:` + 0–5 digit port of
the host segment, when present (the group requires a non-empty group 3
before the colon). -/
def portOf (seg : Str) : Option Str :=
  let ds := (seg.reverse.takeWhile Char.isDigit).reverse
  let rest := seg.take (seg.length - ds.length)
  if ds.length ≤ 5 && rest.getLast? = some ':' && 2 ≤ rest.length then some ds
  else none

/-- The regex match: `none` when the whole regex fails, otherwise
`(group 1, group 4)`: the scheme as written (when a scheme-and-`//` prefix
matched) and the port digits. -/
def regexMatchURL (u : Str) : Option (Option Str × Option Str) :=
  if beginsCI "https://".data u then
    if takeSeg (u.drop 8) ≠ [] then some (some (u.take 6), portOf (takeSeg (u.drop 8)))
    else regexMatchNoPre u
  else if beginsCI "http://".data u then
    if takeSeg (u.drop 7) ≠ [] then some (some (u.take 5), portOf (takeSeg (u.drop 7)))
    else regexMatchNoPre u
  else if begins "//".data u then
    if takeSeg (u.drop 2) ≠ [] then some (none, portOf (takeSeg (u.drop 2)))
    else regexMatchNoPre u
  else regexMatchNoPre u
where
  /-- The empty-prefix alternative of the regex. -/
  regexMatchNoPre (u : Str) : Option (Option Str × Option Str) :=
    if takeSeg u ≠ [] then some (none, portOf (takeSeg u)) else none

/-- The `/^https?:/i` test. -/
def declaresScheme (u : Str) : Bool :=
  beginsCI "http:".data u || beginsCI "https:".data u

/-- The shared tail of `parseURL`: `try { parsed = new URL(s); if
(!parsed.hostname) return null; return parsed.href } catch { return
null }`. -/
def hostFilter (o : Option URLRec) : Option Str :=
  match o with
  | some parsed => if parsed.hostname = [] then none else some parsed.href
  | none => none

/-- `parseURL(req_url)` with no base, with the strict WHATWG parser passed
in as `sp`: `null` when the regex fails; when no scheme was captured,
reject inputs that nevertheless start with `http(s):`, prepend `//` unless
already present, and pick `https:` exactly when the captured port is the
string `443` (else `http:`); finally strict-parse and reject results
without a hostname. -/
def parseURLNoBase (sp : Str → Option URLRec) (req : Str) : Option Str :=
  match regexMatchURL req with
  | none => none
  | some (m1, m4) =>
    match m1 with
    | some _ => hostFilter (sp req)
    | none =>
      if declaresScheme req then none
      else
        let req1 := if !(begins "//".data req) then '/' :: '/' :: req else req
        let req2 := (if m4 = some "443".data then "https:".data else "http:".data) ++ req1
        hostFilter (sp req2)

/-! ## Playlist Rewrite Engine (`proxyM3U8` in `m3u8-proxy.ts`)

The engine splits the manifest on `"\n"`, classifies it as a master
playlist when the text contains `RESOLUTION=`, rewrites each line, and
joins with `"\n"`.  `parseURL(line, url)` — resolution of a line against
the request URL — is passed in as the parameter `resolve` (`none` models
the failure branch of the source's `if (segmentUrl)`).  The
`encodeURIComponent(JSON.stringify(headers))` string is passed in already
encoded as `headersEnc`; `selectedUrl`/`lbChoice` are the constants
`/s` and `local`. -/

/-- A character the regex `/https?:\/\/[^\""\s]+/` may include in a URL:
anything but `"` and whitespace. -/
def urlTokenChar (c : Char) : Bool := c ≠ '"' && !c.isWhitespace

/-- First match of `/https?:\/\/[^\""\s]+/` in the line (the match needs a
scheme, `://`, and at least one URL character). -/
def findFirstHttpUrl : Str → Option Str
  | [] => none
  | l@(_ :: rest) =>
    if begins "https://".data l then
      if (l.drop 8).takeWhile urlTokenChar ≠ [] then
        some ("https://".data ++ (l.drop 8).takeWhile urlTokenChar)
      else findFirstHttpUrl rest
    else if begins "http://".data l then
      if (l.drop 7).takeWhile urlTokenChar ≠ [] then
        some ("http://".data ++ (l.drop 7).takeWhile urlTokenChar)
      else findFirstHttpUrl rest
    else findFirstHttpUrl rest

/-- The proxy URL substituted for an absolute URL:
`/s?u=<base64(url)>&headers=<headersEnc>&lb=local`. -/
def proxyLine (headersEnc : Str) (absUrl : Str) : Str :=
  "/s?u=".data ++ b64encode (strBytes absUrl) ++ "&headers=".data ++ headersEnc ++
  "&lb=local".data

/-- The `#EXT-X-KEY:` (and, in master playlists, `#EXT-X-MEDIA:`)
treatment: find the first `http(s)://…` substring and replace its first
occurrence with its proxy URL; pass the line through when none is found. -/
def transformKeyLine (headersEnc : Str) (line : Str) : Str :=
  match findFirstHttpUrl line with
  | some keyUrl => replaceFirst line keyUrl (proxyLine headersEnc keyUrl)
  | none => line

/-- Media-playlist line transform of `proxyM3U8`. -/
def transformMediaLine (resolve : Str → Option Str) (headersEnc : Str)
    (line : Str) : Str :=
  if begins "#".data line then
    if begins "#EXT-X-KEY:".data line then transformKeyLine headersEnc line
    else line
  else if trimNonEmpty line && !begins "#".data line then
    match resolve line with
    | some segmentUrl => proxyLine headersEnc segmentUrl
    | none => line
  else line

/-- Master-playlist line transform of `proxyM3U8`. -/
def transformMasterLine (resolve : Str → Option Str) (headersEnc : Str)
    (line : Str) : Str :=
  if begins "#".data line then
    if begins "#EXT-X-KEY:".data line then transformKeyLine headersEnc line
    else if begins "#EXT-X-MEDIA:".data line then transformKeyLine headersEnc line
    else line
  else if trimNonEmpty line then
    match resolve line with
    | some variantUrl => proxyLine headersEnc variantUrl
    | none => line
  else line

/-- `proxyM3U8`'s rewrite of the fetched manifest text. -/
def proxyM3U8 (resolve : Str → Option Str) (headersEnc : Str)
    (content : Str) : Str :=
  if containsSub content "RESOLUTION=".data then
    joinNL ((splitNL content).map (transformMasterLine resolve headersEnc))
  else
    joinNL ((splitNL content).map (transformMediaLine resolve headersEnc))

/-- Scheme-and-host part and path of an absolute URL. -/
def splitAuthority (base : Str) : Option (Str × Str) :=
  match indexOfSub base "://".data with
  | none => none
  | some i =>
    let afterScheme := base.drop (i + 3)
    let host := afterScheme.takeWhile (fun c => c ≠ '/' && c ≠ '?')
    some (base.take (i + 3) ++ host, afterScheme.drop host.length)

/-- The directory part of a path (everything up to and including the last
`/`). -/
def dirOf (path : Str) : Str :=
  (path.reverse.dropWhile (fun c => c ≠ '/')).reverse

/-- Modelled from the spec: `resolve(reference, base)` with a base
"resolve[s] `reference` as a standard URL-reference against `base`" — in
the source this is the platform's `new URL(reference, base).href`, which
is not part of `src/`.  This model covers the reference shapes the claims
exercise: an already-absolute reference is returned as-is, a
protocol-relative one takes the base's scheme, an absolute path replaces
the base's path, and a relative path replaces the base path's last
segment (dot-segments are not normalized). -/
def urlResolve (ref base : Str) : Option Str :=
  if containsSub ref "://".data then some ref
  else if begins "//".data ref then
    match indexOfSub base "://".data with
    | none => none
    | some i => some (base.take i ++ ':' :: ref)
  else
    match splitAuthority base with
    | none => none
    | some (pre, path) =>
      if begins "/".data ref then some (pre ++ ref)
      else some (pre ++ dirOf path ++ ref)

/-! # Theorems -/

/-! ## Helper lemmas -/

theorem splitOnChar_ne_nil (c : Char) (l : Str) : splitOnChar c l ≠ [] := by
  cases l with
  | nil => simp [splitOnChar]
  | cons a rest =>
    simp only [splitOnChar]
    rcases hr : splitOnChar c rest with _ | ⟨hh, tt⟩
    · simp
    · by_cases hx : a = c <;> simp [hx]

theorem joinC_cons_cons (c : Char) (a : Char) (h : Str) (t : List Str) (x : Str) :
    joinC c ((a :: x) :: h :: t) = a :: joinC c (x :: h :: t) := by
  simp [joinC]

theorem joinC_splitOnChar (c : Char) (l : Str) : joinC c (splitOnChar c l) = l := by
  induction l with
  | nil => simp [splitOnChar, joinC]
  | cons a rest ih =>
    simp only [splitOnChar]
    rcases hr : splitOnChar c rest with _ | ⟨hh, tt⟩
    · exact absurd hr (splitOnChar_ne_nil c rest)
    · rw [hr] at ih
      by_cases hx : a = c
      · subst hx
        simp only [if_pos rfl]
        cases tt with
        | nil => simp [joinC] at ih ⊢; exact ih
        | cons y ys => simp [joinC] at ih ⊢; exact ih
      · simp only [if_neg hx]
        cases tt with
        | nil => simp [joinC] at ih ⊢; exact ih
        | cons y ys =>
          rw [joinC_cons_cons]
          rw [ih]

theorem splitOnChar_two {c : Char} {l a b : Str}
    (h : splitOnChar c l = [a, b]) : l = a ++ c :: b := by
  have := joinC_splitOnChar c l
  rw [h] at this
  simpa [joinC] using this.symm

theorem not_mem_of_mem_splitOnChar {c : Char} {l x : Str}
    (h : x ∈ splitOnChar c l) : c ∉ x := by
  induction l generalizing x with
  | nil => simp [splitOnChar] at h; simp [h]
  | cons a rest ih =>
    simp only [splitOnChar] at h
    rcases hr : splitOnChar c rest with _ | ⟨hh, tt⟩
    · exact absurd hr (splitOnChar_ne_nil c rest)
    · rw [hr] at h
      replace h : x ∈ (if a = c then ([] :: hh :: tt : List Str) else ((a :: hh) :: tt)) := h
      by_cases hx : a = c
      · rw [if_pos hx] at h
        subst hx
        simp at h
        rcases h with h | h | h
        · simp [h]
        · exact ih (by rw [hr]; simp [h])
        · exact ih (by rw [hr]; simp [h])
      · rw [if_neg hx] at h
        simp at h
        rcases h with h | h
        · subst h
          intro hmem
          simp at hmem
          rcases hmem with hmem | hmem
          · exact hx hmem.symm
          · exact ih (by rw [hr]; simp) hmem
        · exact ih (by rw [hr]; simp [h])

theorem splitOnChar_eq_self_of_not_mem {c : Char} {l : Str} (h : c ∉ l) :
    splitOnChar c l = [l] := by
  induction l with
  | nil => simp [splitOnChar]
  | cons a rest ih =>
    simp at h
    obtain ⟨hac, hrest⟩ := h
    simp only [splitOnChar]
    rw [ih hrest]
    simp [Ne.symm hac]

theorem splitOnChar_append_cons {c : Char} {x r : Str} (h : c ∉ x) :
    splitOnChar c (x ++ c :: r) = x :: splitOnChar c r := by
  induction x with
  | nil =>
    simp only [List.nil_append, splitOnChar]
    rcases hr : splitOnChar c r with _ | ⟨hh, tt⟩
    · exact absurd hr (splitOnChar_ne_nil c r)
    · simp
  | cons a xs ih =>
    simp at h
    obtain ⟨hac, hxs⟩ := h
    simp only [List.cons_append, splitOnChar, List.append_eq]
    rw [ih hxs]
    simp [Ne.symm hac]

theorem splitOnChar_joinC {c : Char} {ls : List Str} (hne : ls ≠ [])
    (h : ∀ l ∈ ls, c ∉ l) : splitOnChar c (joinC c ls) = ls := by
  induction ls with
  | nil => exact absurd rfl hne
  | cons x t ih =>
    cases t with
    | nil =>
      simp only [joinC]
      exact splitOnChar_eq_self_of_not_mem (h x (by simp))
    | cons y ys =>
      have hx : c ∉ x := h x (by simp)
      have : joinC c (x :: y :: ys) = x ++ c :: joinC c (y :: ys) := by simp [joinC]
      rw [this, splitOnChar_append_cons hx]
      rw [ih (by simp) (fun l hl => h l (by simp [hl]))]

theorem b64Index_b64Char {n : Nat} (h : n < 64) : b64Index (b64Char n) = n := by
  have hall : ∀ m : Fin 64, b64Index (b64Char m.val) = m.val := by decide
  exact hall ⟨n, h⟩

theorem b64Char_ne_pad {n : Nat} (h : n < 64) : b64Char n ≠ '=' := by
  have hall : ∀ m : Fin 64, b64Char m.val ≠ '=' := by decide
  exact hall ⟨n, h⟩

theorem b64Char_ne_nl (n : Nat) : b64Char n ≠ '\n' := by
  unfold b64Char List.getD
  rcases hg : b64Alphabet.get? n with _ | c
  · simp [hg]
  · have hmem : c ∈ b64Alphabet := List.get?_mem hg
    simp only [hg, Option.getD_some]
    have hall : ∀ x ∈ b64Alphabet, x ≠ '\n' := by decide
    exact hall c hmem

theorem b64decode_pad2 (c1 c2 : Char) :
    b64decode [c1, c2, '=', '='] = [b64Index c1 * 4 + b64Index c2 / 16] := by
  unfold b64decode
  rw [if_pos rfl]

theorem b64decode_pad1 (c1 c2 c3 : Char) (h3 : c3 ≠ '=') :
    b64decode [c1, c2, c3, '='] =
      [b64Index c1 * 4 + b64Index c2 / 16,
       b64Index c2 % 16 * 16 + b64Index c3 / 4] := by
  unfold b64decode
  rw [if_neg h3, if_pos rfl]

theorem b64decode_full (c1 c2 c3 c4 : Char) (rest : Str) (h3 : c3 ≠ '=') (h4 : c4 ≠ '=') :
    b64decode (c1 :: c2 :: c3 :: c4 :: rest) =
      (b64Index c1 * 4 + b64Index c2 / 16) ::
      (b64Index c2 % 16 * 16 + b64Index c3 / 4) ::
      (b64Index c3 % 4 * 64 + b64Index c4) :: b64decode rest := by
  unfold b64decode
  rw [if_neg h3, if_neg h4, ← b64decode.eq_def]

theorem b64decode_b64encode (l : List Nat) (h : ∀ x ∈ l, x < 256) :
    b64decode (b64encode l) = l := by
  induction l using b64encode.induct with
  | case1 => rfl
  | case2 a =>
    have ha : a < 256 := h a (by simp)
    rw [show b64encode [a] = [b64Char (a / 4), b64Char (a % 4 * 16), '=', '='] from rfl]
    rw [b64decode_pad2]
    rw [b64Index_b64Char (by omega), b64Index_b64Char (by omega)]
    simp only [List.cons.injEq, and_true]
    omega
  | case3 a b =>
    have ha : a < 256 := h a (by simp)
    have hb : b < 256 := h b (by simp)
    rw [show b64encode [a, b] =
        [b64Char (a / 4), b64Char (a % 4 * 16 + b / 16), b64Char (b % 16 * 4), '='] from rfl]
    rw [b64decode_pad1 _ _ _ (b64Char_ne_pad (by omega))]
    rw [b64Index_b64Char (by omega), b64Index_b64Char (by omega),
        b64Index_b64Char (by omega)]
    simp only [List.cons.injEq, and_true]
    constructor <;> omega
  | case4 a b c rest ih =>
    have ha : a < 256 := h a (by simp)
    have hb : b < 256 := h b (by simp)
    have hc : c < 256 := h c (by simp)
    have hrest : ∀ x ∈ rest, x < 256 := fun x hx => h x (by simp [hx])
    rw [show b64encode (a :: b :: c :: rest) =
        b64Char (a / 4) :: b64Char (a % 4 * 16 + b / 16) ::
        b64Char (b % 16 * 4 + c / 64) :: b64Char (c % 64) :: b64encode rest from rfl]
    rw [b64decode_full _ _ _ _ _ (b64Char_ne_pad (by omega)) (b64Char_ne_pad (by omega))]
    rw [b64Index_b64Char (by omega), b64Index_b64Char (by omega),
        b64Index_b64Char (by omega), b64Index_b64Char (by omega)]
    rw [ih hrest]
    simp only [List.cons.injEq, and_true]
    refine ⟨by omega, by omega, by omega⟩

theorem bytesToStr_strBytes (s : Str) : bytesToStr (strBytes s) = s := by
  unfold bytesToStr strBytes
  rw [List.map_map]
  simp [Function.comp_def]

theorem mem_b64encode_ne_nl (l : List Nat) :
    ∀ ch ∈ b64encode l, ch ≠ '\n' := by
  induction l using b64encode.induct with
  | case1 => intro ch hch; simp [b64encode] at hch
  | case2 a =>
    intro ch hch
    simp only [b64encode, List.mem_cons, List.not_mem_nil, or_false] at hch
    rcases hch with h | h | h | h
    · subst h; exact b64Char_ne_nl _
    · subst h; exact b64Char_ne_nl _
    · subst h; decide
    · subst h; decide
  | case3 a b =>
    intro ch hch
    simp only [b64encode, List.mem_cons, List.not_mem_nil, or_false] at hch
    rcases hch with h | h | h | h
    · subst h; exact b64Char_ne_nl _
    · subst h; exact b64Char_ne_nl _
    · subst h; exact b64Char_ne_nl _
    · subst h; decide
  | case4 a b c rest ih =>
    intro ch hch
    simp only [b64encode, List.mem_cons] at hch
    rcases hch with h | h | h | h | h
    · subst h; exact b64Char_ne_nl _
    · subst h; exact b64Char_ne_nl _
    · subst h; exact b64Char_ne_nl _
    · subst h; exact b64Char_ne_nl _
    · exact ih ch h

theorem begins_decomp {p l : Str} (h : begins p l = true) :
    l = p ++ l.drop p.length := by
  induction p generalizing l with
  | nil => simp
  | cons a ps ih =>
    cases l with
    | nil => simp [begins] at h
    | cons b ls =>
      simp only [begins, Bool.and_eq_true, decide_eq_true_eq] at h
      obtain ⟨hab, hps⟩ := h
      subst hab
      simpa using ih hps

theorem matchBytesRange_some {h ns ms : Str}
    (hm : matchBytesRange h = some (ns, ms)) :
    h = "bytes=".data ++ (ns ++ '-' :: ms) ∧
    ns.all (fun c => c.isDigit) = true ∧ ms.all (fun c => c.isDigit) = true := by
  unfold matchBytesRange at hm
  by_cases hb : begins "bytes=".data h = true
  · rw [if_pos hb] at hm
    rcases hs : splitOnChar '-' (h.drop 6) with _ | ⟨x, t⟩
    · exact absurd hs (splitOnChar_ne_nil _ _)
    · rw [hs] at hm
      cases t with
      | nil => simp at hm
      | cons y t2 =>
        cases t2 with
        | nil =>
          replace hm :
              (if ((x.all fun c => c.isDigit) && y.all fun c => c.isDigit) = true then
                some (x, y) else none) = some (ns, ms) := hm
          by_cases hd : ((x.all fun c => c.isDigit) && y.all fun c => c.isDigit) = true
          · rw [if_pos hd] at hm
            simp at hm
            obtain ⟨hx, hy⟩ := hm
            subst hx; subst hy
            simp only [Bool.and_eq_true] at hd
            refine ⟨?_, hd.1, hd.2⟩
            have hdec := begins_decomp hb
            have h2 := splitOnChar_two hs
            rw [← h2]
            simpa using hdec
          · rw [if_neg hd] at hm; simp at hm
        | cons _ _ => simp at hm
  · rw [if_neg hb] at hm; simp at hm

/-- C1: for every `contentLength L > 0`, `parseRangeHeader` agrees with the
spec's reference definition `parseRangeSpec` on every header other than
`"bytes=-"` (the one shape the spec does not enumerate, settled by C10):
`bytes=N-M ↦ (N, M)`, `bytes=N- ↦ (N, L-1)`, `bytes=-N ↦ (max 0 (L-N), L-1)`,
`none` exactly when the computed start or end reaches `L`, start exceeds end,
or the header is not of the form `bytes=<digits?>-<digits?>`; in particular
every header containing a comma (any multi-range header) yields `none`. -/
theorem C1_parseRange_matches_spec (h : Str) (L : Int) (hL : 1 ≤ L) :
    (h ≠ "bytes=-".data → parseRangeHeader h L = parseRangeSpec h L) ∧
    (',' ∈ h → parseRangeHeader h L = none) := by
  constructor
  · intro hne
    unfold parseRangeHeader parseRangeSpec
    rcases hm : matchBytesRange h with _ | ⟨ns, ms⟩
    · rfl
    · obtain ⟨hdecomp, hnsd, hmsd⟩ := matchBytesRange_some hm
      cases hns : ns with
      | nil =>
        cases hms : ms with
        | nil =>
          exfalso
          apply hne
          rw [hdecomp, hns, hms]
          rfl
        | cons m mt => simp
      | cons n nt =>
        cases hms : ms with
        | nil => simp
        | cons m mt => simp
  · intro hc
    rcases hm : matchBytesRange h with _ | ⟨ns, ms⟩
    · unfold parseRangeHeader
      rw [hm]
    · exfalso
      obtain ⟨hdecomp, hnsd, hmsd⟩ := matchBytesRange_some hm
      rw [hdecomp, List.mem_append] at hc
      rcases hc with hc | hc
      · revert hc; decide
      · rw [List.mem_append] at hc
        rcases hc with hc | hc
        · have := List.all_eq_true.mp hnsd ',' hc
          exact absurd this (by decide)
        · rcases List.mem_cons.mp hc with hc | hc
          · exact absurd hc (by decide)
          · have := List.all_eq_true.mp hmsd ',' hc
            exact absurd this (by decide)

/-- Witness for C1 at the concrete input `bytes=2-5` with `L = 10`. -/
theorem C1_witness :
    (1 : Int) ≤ 10 ∧
    parseRangeHeader "bytes=2-5".data 10 = parseRangeSpec "bytes=2-5".data 10 ∧
    parseRangeHeader "bytes=2-5".data 10 = some (2, 5) := by
  refine ⟨by norm_num, (C1_parseRange_matches_spec _ 10 (by norm_num)).1 (by decide), ?_⟩
  decide

/-- C10: for every `contentLength L ≥ 1`, the range parser maps the header
`"bytes=-"` (both bounds empty, a form the spec does not enumerate) to the
full range `(0, L-1)` rather than `none`: the empty start defaults to `0`,
the empty end defaults to `L-1`, and the suffix branch is only taken when the
end bound is present. -/
theorem C10_bytes_dash_full_range (L : Int) (hL : 1 ≤ L) :
    parseRangeHeader "bytes=-".data L = some (0, L - 1) := by
  have hm : matchBytesRange "bytes=-".data = some ([], []) := by decide
  have hred : parseRangeHeader "bytes=-".data L =
      if (0 : Int) ≥ L ∨ L - 1 ≥ L ∨ (0 : Int) > L - 1 then none else some (0, L - 1) := by
    unfold parseRangeHeader
    rw [hm]
    simp
  rw [hred, if_neg (by omega)]

/-- Witness for C10 at `L = 7`. -/
theorem C10_witness :
    (1 : Int) ≤ 7 ∧ parseRangeHeader "bytes=-".data 7 = some (0, 6) := by
  refine ⟨by norm_num, ?_⟩
  have := C10_bytes_dash_full_range 7 (by norm_num)
  simpa using this

/-- C6: for every `totalSize > 0` and `chunkSize > 0`, the generated chunk
manifest has `totalChunks = ceil(totalSize / chunkSize)` descriptors;
descriptor `i` has `start = i * chunkSize`,
`end = min ((i+1) * chunkSize - 1) (totalSize - 1)` and
`size = end - start + 1`; and the last chunk ends at `totalSize - 1`. -/
theorem C6_generateManifest_partition (encF : Str → Str) (url headersEnc : Str)
    (ts cs : Nat) (hts : 0 < ts) (hcs : 0 < cs) :
    (generateManifest encF url ts headersEnc cs).totalChunks = (ts + cs - 1) / cs ∧
    (generateManifest encF url ts headersEnc cs).chunks.length =
      (generateManifest encF url ts headersEnc cs).totalChunks ∧
    (∀ i, i < (generateManifest encF url ts headersEnc cs).totalChunks →
      (generateManifest encF url ts headersEnc cs).chunks.get? i =
        some { index := i, start := i * cs,
               endByte := min ((i + 1) * cs - 1) (ts - 1),
               size := min ((i + 1) * cs - 1) (ts - 1) - i * cs + 1,
               url := getChunkUrl encF url i headersEnc }) ∧
    0 < (generateManifest encF url ts headersEnc cs).totalChunks ∧
    (generateManifest encF url ts headersEnc cs).chunks.get?
        ((generateManifest encF url ts headersEnc cs).totalChunks - 1) =
      some { index := (ts + cs - 1) / cs - 1,
             start := ((ts + cs - 1) / cs - 1) * cs,
             endByte := ts - 1,
             size := ts - 1 - ((ts + cs - 1) / cs - 1) * cs + 1,
             url := getChunkUrl encF url ((ts + cs - 1) / cs - 1) headersEnc } := by
  have hdm := Nat.div_add_mod (ts + cs - 1) cs
  have hmlt : (ts + cs - 1) % cs < cs := Nat.mod_lt _ hcs
  have hcomm : (ts + cs - 1) / cs * cs = cs * ((ts + cs - 1) / cs) := Nat.mul_comm _ _
  have htc : 0 < (ts + cs - 1) / cs :=
    Nat.div_pos (by omega) hcs
  have hgen : ∀ i, i < (ts + cs - 1) / cs →
      (generateManifest encF url ts headersEnc cs).chunks.get? i =
        some { index := i, start := i * cs,
               endByte := min (i * cs + cs - 1) (ts - 1),
               size := min (i * cs + cs - 1) (ts - 1) - i * cs + 1,
               url := getChunkUrl encF url i headersEnc } := by
    intro i hi
    unfold generateManifest
    simp only [List.get?_eq_getElem?, List.getElem?_map, List.getElem?_range, hi,
      if_pos hi]
    simp [List.getElem?_range, hi]
  refine ⟨rfl, by simp [generateManifest], ?_, htc, ?_⟩
  · intro i hi
    have := hgen i hi
    rw [this]
    have : (i + 1) * cs - 1 = i * cs + cs - 1 := by rw [Nat.add_mul, one_mul]
    rw [this]
  · have hlast := hgen ((ts + cs - 1) / cs - 1) (by omega)
    rw [show (generateManifest encF url ts headersEnc cs).totalChunks = (ts + cs - 1) / cs
        from rfl]
    rw [hlast]
    have hsub : ((ts + cs - 1) / cs - 1) * cs = (ts + cs - 1) / cs * cs - cs := by
      rw [Nat.sub_mul, one_mul]
    have hend : min (((ts + cs - 1) / cs - 1) * cs + cs - 1) (ts - 1) = ts - 1 :=
      Nat.min_eq_right (by omega)
    rw [hend]

/-- Witness for C6 at the spec's concrete instance `totalSize = 1000000`,
`chunkSize = 262144`: 4 chunks, last chunk `end = 999999` and
`size = 999999 - 3 * 262144 + 1`. -/
theorem C6_witness :
    0 < 1000000 ∧ 0 < 262144 ∧
    (generateManifest (fun s => s) [] 1000000 [] 262144).totalChunks = 4 ∧
    ((generateManifest (fun s => s) [] 1000000 [] 262144).chunks.get? 3).map
        (fun c => c.endByte) = some 999999 ∧
    ((generateManifest (fun s => s) [] 1000000 [] 262144).chunks.get? 3).map
        (fun c => c.size) = some (999999 - 3 * 262144 + 1) := by
  have h := C6_generateManifest_partition (fun s => s) [] [] 1000000 262144
    (by norm_num) (by norm_num)
  refine ⟨by norm_num, by norm_num, ?_, ?_, ?_⟩
  · rw [h.1]
  · have h4 : (1000000 + 262144 - 1) / 262144 = 4 := by norm_num
    have := h.2.2.2.2
    rw [h4] at this
    simp only [h.1, h4] at this ⊢
    rw [show (4 : Nat) - 1 = 3 from rfl] at this
    rw [this]
    norm_num
  · have h4 : (1000000 + 262144 - 1) / 262144 = 4 := by norm_num
    have := h.2.2.2.2
    rw [h4] at this
    simp only [h.1, h4] at this ⊢
    rw [show (4 : Nat) - 1 = 3 from rfl] at this
    rw [this]
    norm_num

/-- C2: warm-tier envelope versioning.  A `version = 2` envelope is
base64-decoded and then gunzipped; a `version = 1` or version-less envelope
is returned as the raw base64-decoded bytes with no decompression; every
envelope written by `set` carries `version = 2` with a gzip-compressed,
base64-encoded payload; consequently a `set` followed by a `get` under a
gzip/gunzip pair returns the original entry. -/
theorem C2_warm_tier_versioning :
    (∀ (gunzipF : List Nat → Option (List Nat)) (env : CacheStorageFormat),
      env.version = some 2 →
      redisGetDecode gunzipF env =
        (gunzipF (b64decode env.data)).map
          (fun d => { data := d, headers := env.headers, timestamp := env.timestamp })) ∧
    (∀ (gunzipF : List Nat → Option (List Nat)) (env : CacheStorageFormat),
      env.version = some 1 ∨ env.version = none →
      redisGetDecode gunzipF env =
        some { data := b64decode env.data, headers := env.headers,
               timestamp := env.timestamp }) ∧
    (∀ (gzipF : List Nat → List Nat) (entry : CacheEntry),
      (redisSetEncode gzipF entry).version = some 2 ∧
      (redisSetEncode gzipF entry).data = b64encode (gzipF entry.data)) ∧
    (∀ (gzipF : List Nat → List Nat) (gunzipF : List Nat → Option (List Nat))
       (entry : CacheEntry),
      (∀ x ∈ gzipF entry.data, x < 256) →
      gunzipF (gzipF entry.data) = some entry.data →
      redisGetDecode gunzipF (redisSetEncode gzipF entry) = some entry) := by
  refine ⟨?_, ?_, ?_, ?_⟩
  · intro gunzipF env henv
    rcases hg : gunzipF (b64decode env.data) with _ | d <;>
      simp [redisGetDecode, henv, hg]
  · intro gunzipF env henv
    rcases henv with henv | henv <;> simp [redisGetDecode, henv]
  · intro gzipF entry
    exact ⟨rfl, rfl⟩
  · intro gzipF gunzipF entry hbytes hinv
    have hb64 : b64decode (b64encode (gzipF entry.data)) = gzipF entry.data :=
      b64decode_b64encode _ hbytes
    simp [redisGetDecode, redisSetEncode, hb64, hinv]

/-- Witness for C2: a concrete entry through an identity gzip/gunzip pair. -/
theorem C2_witness :
    (∀ x ∈ ([104, 105] : List Nat), x < 256) ∧
    redisGetDecode (fun l => some l)
        (redisSetEncode (fun l => l)
          { data := [104, 105], headers := [], timestamp := 0 }) =
      some { data := [104, 105], headers := [], timestamp := 0 } := by
  refine ⟨by decide, ?_⟩
  exact C2_warm_tier_versioning.2.2.2 (fun l => l) (fun l => some l)
    { data := [104, 105], headers := [], timestamp := 0 } (by decide) rfl

theorem getCachedG_fresh_le {α : Type} (tsOf : α → Int) (expiry : Int)
    (disabled : Bool) (now : Int) (st : List (Str × α)) (key : Str) (e : α)
    (h : (getCachedG tsOf expiry disabled now st key).1 = some e) :
    now - tsOf e ≤ expiry := by
  unfold getCachedG at h
  by_cases hd : disabled = true
  · rw [if_pos hd] at h; simp at h
  · rw [if_neg hd] at h
    rcases hl : lookupKey st key with _ | entry
    · rw [hl] at h; simp at h
    · rw [hl] at h
      replace h : (if now - tsOf entry > expiry then
          ((none, deleteK st key) : Option α × List (Str × α))
          else (some entry, st)).1 = some e := h
      by_cases hage : now - tsOf entry > expiry
      · rw [if_pos hage] at h; simp at h
      · rw [if_neg hage] at h
        have he : entry = e := by simpa using h
        subst he
        omega

theorem getCachedG_expired_evicts {α : Type} (tsOf : α → Int) (expiry : Int)
    (now : Int) (st : List (Str × α)) (key : Str) (e : α)
    (hl : lookupKey st key = some e) (hage : now - tsOf e > expiry) :
    getCachedG tsOf expiry false now st key = (none, deleteK st key) := by
  unfold getCachedG
  rw [if_neg (by simp), hl]
  show (if now - tsOf e > expiry then ((none, deleteK st key) : Option α × List (Str × α))
        else (some e, st)) = _
  rw [if_pos hage]

theorem getCachedG_fresh_returns {α : Type} (tsOf : α → Int) (expiry : Int)
    (now : Int) (st : List (Str × α)) (key : Str) (e : α)
    (hl : lookupKey st key = some e) (hage : ¬(now - tsOf e > expiry)) :
    getCachedG tsOf expiry false now st key = (some e, st) := by
  unfold getCachedG
  rw [if_neg (by simp), hl]
  show (if now - tsOf e > expiry then ((none, deleteK st key) : Option α × List (Str × α))
        else (some e, st)) = _
  rw [if_neg hage]

/-- C7: a hot-tier `get` never returns an entry older than its tier's TTL
(2 h for the segment cache, 4 h for the MP4-chunk cache); a stored entry
past the TTL is deleted and reported as a miss; a fresh entry is returned
with the map unchanged. -/
theorem C7_hot_get_ttl :
    (∀ disabled now st url e,
      (getCachedSegment disabled now st url).1 = some e →
      now - e.timestamp ≤ CACHE_EXPIRY_MS_M3U8) ∧
    (∀ disabled now st url range e,
      (getCachedChunk disabled now st url range).1 = some e →
      now - e.timestamp ≤ CACHE_EXPIRY_MS_MP4) ∧
    (∀ now st url (e : CacheEntry), lookupKey st url = some e →
      now - e.timestamp > CACHE_EXPIRY_MS_M3U8 →
      getCachedSegment false now st url = (none, deleteK st url)) ∧
    (∀ now st url (e : CacheEntry), lookupKey st url = some e →
      now - e.timestamp ≤ CACHE_EXPIRY_MS_M3U8 →
      getCachedSegment false now st url = (some e, st)) ∧
    (∀ now st url range (e : CacheEntryMP4),
      lookupKey st (url ++ ':' :: range) = some e →
      now - e.timestamp > CACHE_EXPIRY_MS_MP4 →
      getCachedChunk false now st url range =
        (none, deleteK st (url ++ ':' :: range))) ∧
    (∀ now st url range (e : CacheEntryMP4),
      lookupKey st (url ++ ':' :: range) = some e →
      now - e.timestamp ≤ CACHE_EXPIRY_MS_MP4 →
      getCachedChunk false now st url range = (some e, st)) := by
  refine ⟨?_, ?_, ?_, ?_, ?_, ?_⟩
  · intro disabled now st url e h
    exact getCachedG_fresh_le CacheEntry.timestamp _ disabled now st url e h
  · intro disabled now st url range e h
    exact getCachedG_fresh_le CacheEntryMP4.timestamp _ disabled now st _ e h
  · intro now st url e hl hage
    exact getCachedG_expired_evicts CacheEntry.timestamp _ now st url e hl hage
  · intro now st url e hl hage
    exact getCachedG_fresh_returns CacheEntry.timestamp _ now st url e hl (by omega)
  · intro now st url range e hl hage
    exact getCachedG_expired_evicts CacheEntryMP4.timestamp _ now st _ e hl hage
  · intro now st url range e hl hage
    exact getCachedG_fresh_returns CacheEntryMP4.timestamp _ now st _ e hl (by omega)

/-- Witness for C7: a fresh entry is returned, and an expired one evicted,
on a concrete one-entry map. -/
theorem C7_witness :
    lookupKey [("k".data, ({ data := [], headers := [], timestamp := 0 } : CacheEntry))]
        "k".data = some { data := [], headers := [], timestamp := 0 } ∧
    (5 : Int) - 0 ≤ CACHE_EXPIRY_MS_M3U8 ∧
    getCachedSegment false 5
        [("k".data, { data := [], headers := [], timestamp := 0 })] "k".data =
      (some { data := [], headers := [], timestamp := 0 },
       [("k".data, { data := [], headers := [], timestamp := 0 })]) := by
  refine ⟨by decide, by decide, ?_⟩
  exact C7_hot_get_ttl.2.2.2.1 5 _ "k".data
    { data := [], headers := [], timestamp := 0 } (by decide) (by decide)

/-- C9 counterexample: with the global cache-disable flag set (`true`), the
warm tier's `RedisCache.get`, invoked while connected, still returns the
stored entry (the method checks only connectivity, never the flag), and
`RedisCache.delete` still removes the stored key — refuting "every
cache-tier get reports a miss and every set/delete is a no-op". -/
theorem C9_counterexample :
    isCacheDisabled true rcCex = true ∧
    redisGet (fun _ => none) rcCex "u".data =
      some { data := [7], headers := [], timestamp := 0 } ∧
    redisGet (fun _ => none) rcCex "u".data ≠ none ∧
    (redisDelete rcCex "u".data).store = [] ∧
    rcCex.store ≠ [] := by
  refine ⟨rfl, by decide, by decide, by decide, by decide⟩

/-- C9 amended: when the global cache-disable flag is set, the hot-tier
`get`s miss with the map untouched and the hot-tier prefetch store is a
no-op; `RedisCache.isCacheDisabled()` reports `true`, so the warm-tier read
and write as performed by the routes (always guarded by
`!isCacheDisabled()`) miss and are no-ops; the unguarded `RedisCache`
methods themselves, however, consult only the connection state. -/
theorem C9_amended_disable_flag :
    (∀ now st url, getCachedSegment true now st url = (none, st)) ∧
    (∀ now st url range, getCachedChunk true now st url range = (none, st)) ∧
    (∀ now st key fetched, prefetchMP4ChunkStore true now st key fetched = st) ∧
    (∀ rc, isCacheDisabled true rc = true) ∧
    (∀ gunzipF rc url, guardedRedisGet true gunzipF rc url = none) ∧
    (∀ gzipF gunzipF rc url entry,
      guardedRedisWrite true gzipF gunzipF rc url entry = rc) := by
  refine ⟨?_, ?_, ?_, ?_, ?_, ?_⟩
  · intro now st url; rfl
  · intro now st url range; rfl
  · intro now st key fetched; rfl
  · intro rc; rfl
  · intro gunzipF rc url; rfl
  · intro gzipF gunzipF rc url entry; rfl

theorem eq_of_fst_eq_of_nodupKeys {α : Type} {l : List (Str × α)}
    (h : (l.map Prod.fst).Nodup) {x y : Str × α}
    (hx : x ∈ l) (hy : y ∈ l) (hfst : x.1 = y.1) : x = y := by
  induction l with
  | nil => simp at hx
  | cons a t ih =>
    simp only [List.map_cons, List.nodup_cons] at h
    obtain ⟨hna, hnt⟩ := h
    rcases List.mem_cons.mp hx with hx | hx <;> rcases List.mem_cons.mp hy with hy | hy
    · rw [hx, hy]
    · exfalso
      apply hna
      rw [← hx, hfst]
      exact List.mem_map_of_mem Prod.fst hy
    · exfalso
      apply hna
      rw [← hy, ← hfst]
      exact List.mem_map_of_mem Prod.fst hx
    · exact ih hnt hx hy

theorem capTrim_length_le {α : Type} (tsOf : α → Int) (maxSize : Nat)
    (alive : List (Str × α)) : (capTrim tsOf maxSize alive).length ≤ maxSize := by
  unfold capTrim
  by_cases hgt : alive.length > maxSize
  · rw [if_pos hgt]
    set le := fun p q : Str × α => decide (tsOf p.2 ≤ tsOf q.2) with hle
    set sorted := alive.mergeSort le with hsorted
    set k := alive.length - maxSize with hk
    set toRemove := (sorted.take k).map Prod.fst with htr
    set P := fun p : Str × α => !decide (p.1 ∈ toRemove) with hP
    have hperm : sorted.Perm alive := List.mergeSort_perm alive le
    have hpermf : (alive.filter P).Perm (sorted.filter P) :=
      (List.Perm.filter P hperm).symm
    have hlen : (alive.filter P).length = (sorted.filter P).length :=
      hpermf.length_eq
    have hsplit : sorted.take k ++ sorted.drop k = sorted := List.take_append_drop k sorted
    have htake : (sorted.take k).filter P = [] := by
      rw [List.filter_eq_nil_iff]
      intro p hp
      simp only [hP, Bool.not_eq_true', decide_eq_false_iff_not, not_not,
        Decidable.not_not]
      exact List.mem_map_of_mem Prod.fst hp
    have hslen : sorted.length = alive.length := hperm.length_eq
    calc (alive.filter P).length
        = (sorted.filter P).length := hlen
      _ = ((sorted.take k ++ sorted.drop k).filter P).length := by rw [hsplit]
      _ = ((sorted.take k).filter P).length + ((sorted.drop k).filter P).length := by
          rw [List.filter_append, List.length_append]
      _ = ((sorted.drop k).filter P).length := by rw [htake]; simp
      _ ≤ (sorted.drop k).length := List.length_filter_le _ _
      _ = sorted.length - k := List.length_drop k sorted
      _ ≤ maxSize := by omega
  · rw [if_neg hgt]
    omega

theorem capTrim_exact {α : Type} (tsOf : α → Int) (maxSize : Nat)
    (alive : List (Str × α)) (hnd : (alive.map Prod.fst).Nodup) :
    (capTrim tsOf maxSize alive).length = min alive.length maxSize ∧
    (∀ p ∈ alive, p ∉ capTrim tsOf maxSize alive →
      ∀ q ∈ capTrim tsOf maxSize alive, tsOf p.2 ≤ tsOf q.2) := by
  unfold capTrim
  by_cases hgt : alive.length > maxSize
  · rw [if_pos hgt]
    set le := fun p q : Str × α => decide (tsOf p.2 ≤ tsOf q.2) with hle
    set sorted := alive.mergeSort le with hsorted
    set k := alive.length - maxSize with hk
    set toRemove := (sorted.take k).map Prod.fst with htr
    set P := fun p : Str × α => !decide (p.1 ∈ toRemove) with hP
    have hperm : sorted.Perm alive := List.mergeSort_perm alive le
    have hndup : alive.Nodup := List.Nodup.of_map Prod.fst hnd
    have hsnodup : sorted.Nodup := hperm.nodup_iff.mpr hndup
    have hknodup : (sorted.map Prod.fst).Nodup := by
      exact ((hperm.map Prod.fst).nodup_iff).mpr hnd
    have hsplit : sorted.take k ++ sorted.drop k = sorted := List.take_append_drop k sorted
    have hdisj : (sorted.take k).Disjoint (sorted.drop k) := by
      have := hsnodup
      rw [← hsplit, List.nodup_append] at this
      exact this.2.2
    have hpermf : (alive.filter P).Perm (sorted.filter P) :=
      (List.Perm.filter P hperm).symm
    have htake : (sorted.take k).filter P = [] := by
      rw [List.filter_eq_nil_iff]
      intro p hp
      simp only [hP, Bool.not_eq_true', decide_eq_false_iff_not, not_not,
        Decidable.not_not]
      exact List.mem_map_of_mem Prod.fst hp
    have hdropmem : ∀ q ∈ sorted.drop k, q.1 ∉ toRemove := by
      intro q hq hmem
      rw [htr] at hmem
      obtain ⟨t, ht, htq⟩ := List.mem_map.mp hmem
      have hts : t ∈ sorted := List.mem_of_mem_take ht
      have hqs : q ∈ sorted := List.mem_of_mem_drop hq
      have : t = q := eq_of_fst_eq_of_nodupKeys hknodup hts hqs htq
      subst this
      exact hdisj ht hq
    have hdrop : (sorted.drop k).filter P = sorted.drop k := by
      rw [List.filter_eq_self]
      intro q hq
      simp only [hP, Bool.not_eq_true', decide_eq_false_iff_not]
      exact hdropmem q hq
    have hslen : sorted.length = alive.length := hperm.length_eq
    have hfilterlen : (alive.filter P).length = maxSize := by
      calc (alive.filter P).length
          = (sorted.filter P).length := hpermf.length_eq
        _ = ((sorted.take k ++ sorted.drop k).filter P).length := by rw [hsplit]
        _ = ((sorted.take k).filter P).length + ((sorted.drop k).filter P).length := by
            rw [List.filter_append, List.length_append]
        _ = (sorted.drop k).length := by rw [htake, hdrop]; simp
        _ = sorted.length - k := List.length_drop k sorted
        _ = maxSize := by omega
    refine ⟨by rw [hfilterlen]; omega, ?_⟩
    intro p hpa hpn q hq
    have hpP : ¬ P p = true := by
      intro hPp
      exact hpn (List.mem_filter.mpr ⟨hpa, hPp⟩)
    have hpkey : p.1 ∈ toRemove := by
      simp only [hP, Bool.not_eq_true', decide_eq_false_iff_not, not_not,
        Decidable.not_not] at hpP
      exact hpP
    obtain ⟨t, ht, htp⟩ := List.mem_map.mp (htr ▸ hpkey)
    have htsorted : t ∈ sorted := List.mem_of_mem_take ht
    have hpsorted : p ∈ sorted := hperm.mem_iff.mpr hpa
    have htp2 : t = p := eq_of_fst_eq_of_nodupKeys hknodup htsorted hpsorted htp
    subst htp2
    have hqalive : q ∈ alive := (List.mem_filter.mp hq).1
    have hqP : P q = true := (List.mem_filter.mp hq).2
    have hqsorted : q ∈ sorted := hperm.mem_iff.mpr hqalive
    have hqdrop : q ∈ sorted.drop k := by
      rcases (List.mem_append.mp (hsplit ▸ hqsorted)) with hqt | hqd
    -- q in the take part would put its key in toRemove, contradicting P q
      · exfalso
        have : q.1 ∈ toRemove := htr ▸ List.mem_map_of_mem Prod.fst hqt
        simp only [hP, Bool.not_eq_true', decide_eq_false_iff_not] at hqP
        exact hqP this
      · exact hqd
    have hsortedpw : List.Pairwise (fun a b => le a b = true) sorted := by
      apply List.sorted_mergeSort
      · intro a b c hab hbc
        simp only [hle, decide_eq_true_eq] at hab hbc ⊢
        omega
      · intro a b
        simp only [hle, Bool.or_eq_true, decide_eq_true_eq]
        omega
    have hcross := (List.pairwise_append.mp (hsplit ▸ hsortedpw)).2.2
    have := hcross t ht q hqdrop
    simpa [hle] using this
  · rw [if_neg hgt]
    refine ⟨by omega, ?_⟩
    intro p hpa hpn
    exact absurd hpa hpn

theorem cleanupCacheG_length_le {α : Type} (tsOf : α → Int) (expiry : Int)
    (maxSize : Nat) (now : Int) (st : List (Str × α)) :
    (cleanupCacheG tsOf expiry maxSize now st).length ≤ maxSize :=
  capTrim_length_le tsOf maxSize _

theorem capTrim_sublist {α : Type} (tsOf : α → Int) (maxSize : Nat)
    (alive : List (Str × α)) : (capTrim tsOf maxSize alive).Sublist alive := by
  unfold capTrim
  by_cases hgt : alive.length > maxSize
  · rw [if_pos hgt]
    exact List.filter_sublist alive
  · rw [if_neg hgt]

theorem cleanupCacheG_sublist {α : Type} (tsOf : α → Int) (expiry : Int)
    (maxSize : Nat) (now : Int) (st : List (Str × α)) :
    (cleanupCacheG tsOf expiry maxSize now st).Sublist st :=
  (capTrim_sublist tsOf maxSize _).trans (List.filter_sublist st)

theorem mapSetK_length_le {α : Type} (st : List (Str × α)) (k : Str) (v : α) :
    (mapSetK st k v).length ≤ st.length + 1 := by
  unfold mapSetK
  by_cases hs : (lookupKey st k).isSome = true
  · rw [if_pos hs]; simp
  · rw [if_neg hs]; simp

theorem prefetchStoreG_length_le {α : Type} (tsOf : α → Int) (expiry : Int)
    (maxSize : Nat) (now : Int) (st : List (Str × α)) (key : Str)
    (fetched : Option α) :
    (prefetchStoreG tsOf expiry maxSize false now st key fetched).length ≤
      maxSize + 1 := by
  set st1 := if st.length ≥ maxSize then cleanupCacheG tsOf expiry maxSize now st
      else st with hst1def
  have hst1 : st1.length ≤ maxSize + 1 := by
    rw [hst1def]
    by_cases hge : st.length ≥ maxSize
    · rw [if_pos hge]
      have := cleanupCacheG_length_le tsOf expiry maxSize now st
      omega
    · rw [if_neg hge]
      omega
  have hgoal : prefetchStoreG tsOf expiry maxSize false now st key fetched =
      (match lookupKey st1 key with
       | some existing =>
         if now - tsOf existing ≤ expiry then st1
         else (match fetched with | some e => mapSetK st1 key e | none => st1)
       | none => (match fetched with | some e => mapSetK st1 key e | none => st1)) := by
    unfold prefetchStoreG
    rw [if_neg (by simp)]
  rw [hgoal]
  have hst1cap : st1.length ≤ maxSize := by
    rw [hst1def]
    by_cases hge : st.length ≥ maxSize
    · rw [if_pos hge]
      exact cleanupCacheG_length_le tsOf expiry maxSize now st
    · rw [if_neg hge]
      omega
  rcases fetched with _ | e <;> rcases hl : lookupKey st1 key with _ | existing
  · exact le_trans hst1cap (Nat.le_succ maxSize)
  · change (if now - tsOf existing ≤ expiry then st1 else st1).length ≤ maxSize + 1
    by_cases hage : now - tsOf existing ≤ expiry
    · rw [if_pos hage]; omega
    · rw [if_neg hage]; omega
  · exact le_trans (mapSetK_length_le st1 key e) (by omega)
  · change (if now - tsOf existing ≤ expiry then st1
      else mapSetK st1 key e).length ≤ maxSize + 1
    by_cases hage : now - tsOf existing ≤ expiry
    · rw [if_pos hage]; omega
    · rw [if_neg hage]
      have := mapSetK_length_le st1 key e
      omega

theorem applyOp_length_le {α : Type} (tsOf : α → Int) (expiry : Int)
    (maxSize : Nat) (st : List (Str × α)) (op : CacheOp α) :
    (applyOp tsOf expiry maxSize st op).length ≤ maxSize + 1 := by
  cases op with
  | set now key fetched =>
    exact prefetchStoreG_length_le tsOf expiry maxSize now st key fetched
  | sweep now =>
    have := cleanupCacheG_length_le tsOf expiry maxSize now st
    simp only [applyOp]
    omega

theorem applyOps_length_le {α : Type} (tsOf : α → Int) (expiry : Int)
    (maxSize : Nat) (ops : List (CacheOp α)) (st : List (Str × α)) :
    (applyOps tsOf expiry maxSize ops st).length ≤ maxSize + 1 ∨
    applyOps tsOf expiry maxSize ops st = st := by
  induction ops generalizing st with
  | nil => right; rfl
  | cons op rest ih =>
    have hstep : applyOps tsOf expiry maxSize (op :: rest) st =
        applyOps tsOf expiry maxSize rest (applyOp tsOf expiry maxSize st op) := rfl
    rw [hstep]
    rcases ih (applyOp tsOf expiry maxSize st op) with h | h
    · left; exact h
    · left
      rw [h]
      exact applyOp_length_le tsOf expiry maxSize st op

theorem lookupKey_eq_none_iff {α : Type} (st : List (Str × α)) (k : Str) :
    lookupKey st k = none ↔ ∀ p ∈ st, p.1 ≠ k := by
  unfold lookupKey
  rw [Option.map_eq_none']
  rw [List.find?_eq_none]
  simp only [decide_eq_true_eq, ne_eq]

theorem prefetchStoreG_insert {α : Type} (tsOf : α → Int) (expiry : Int)
    (maxSize : Nat) (now : Int) (st : List (Str × α)) (key : Str) (e : α)
    (hsmall : ¬ st.length ≥ maxSize) (hnone : lookupKey st key = none) :
    prefetchStoreG tsOf expiry maxSize false now st key (some e) =
      st ++ [(key, e)] := by
  unfold prefetchStoreG
  rw [if_neg (by simp), if_neg hsmall]
  simp only [hnone]
  unfold mapSetK
  rw [hnone]
  simp

theorem cleanupCacheG_eq_self {α : Type} (tsOf : α → Int) (expiry : Int)
    (maxSize : Nat) (now : Int) (st : List (Str × α))
    (h1 : ∀ p ∈ st, now - tsOf p.2 ≤ expiry) (h2 : ¬ st.length > maxSize) :
    cleanupCacheG tsOf expiry maxSize now st = st := by
  unfold cleanupCacheG expireFilter capTrim
  have hf : st.filter (fun p => decide (now - tsOf p.2 ≤ expiry)) = st := by
    rw [List.filter_eq_self]
    intro p hp
    simpa using h1 p hp
  rw [hf, if_neg h2]

theorem prefetchStoreG_insert_full {α : Type} (tsOf : α → Int) (expiry : Int)
    (maxSize : Nat) (now : Int) (st : List (Str × α)) (key : Str) (e : α)
    (hge : st.length ≥ maxSize)
    (hclean : cleanupCacheG tsOf expiry maxSize now st = st)
    (hnone : lookupKey st key = none) :
    prefetchStoreG tsOf expiry maxSize false now st key (some e) =
      st ++ [(key, e)] := by
  unfold prefetchStoreG
  rw [if_neg (by simp), if_pos hge, hclean]
  simp only [hnone]
  unfold mapSetK
  rw [hnone]
  simp

theorem applyOps_buildUp {α : Type} (tsOf : α → Int) (expiry : Int) (maxSize : Nat)
    (kf : Nat → Str) (hinj : ∀ i j, kf i = kf j → i = j) (e : α) :
    ∀ n, n ≤ maxSize →
      applyOps tsOf expiry maxSize
        ((List.range n).map (fun i => CacheOp.set 0 (kf i) (some e))) [] =
      (List.range n).map (fun i => (kf i, e)) := by
  intro n
  induction n with
  | zero => intro _; rfl
  | succ m ih =>
    intro hle
    rw [List.range_succ, List.map_append, List.map_append]
    unfold applyOps
    rw [List.foldl_append]
    have hprev := ih (by omega)
    unfold applyOps at hprev
    rw [hprev]
    show applyOp tsOf expiry maxSize ((List.range m).map (fun i => (kf i, e)))
        (CacheOp.set 0 (kf m) (some e)) =
      (List.range m).map (fun i => (kf i, e)) ++ [(kf m, e)]
    show prefetchStoreG tsOf expiry maxSize false 0
        ((List.range m).map (fun i => (kf i, e))) (kf m) (some e) = _
    apply prefetchStoreG_insert
    · simp only [List.length_map, List.length_range]
      omega
    · rw [lookupKey_eq_none_iff]
      intro p hp
      obtain ⟨i, hi, hpi⟩ := List.mem_map.mp hp
      subst hpi
      intro heq
      have := hinj i m heq
      have hilt := List.mem_range.mp hi
      omega

theorem applyOps_append {α : Type} (tsOf : α → Int) (expiry : Int)
    (maxSize : Nat) (l1 l2 : List (CacheOp α)) (st : List (Str × α)) :
    applyOps tsOf expiry maxSize (l1 ++ l2) st =
      applyOps tsOf expiry maxSize l2 (applyOps tsOf expiry maxSize l1 st) := by
  unfold applyOps
  exact List.foldl_append _ _ _ _

theorem applyOps_singleton {α : Type} (tsOf : α → Int) (expiry : Int)
    (maxSize : Nat) (op : CacheOp α) (st : List (Str × α)) :
    applyOps tsOf expiry maxSize [op] st = applyOp tsOf expiry maxSize st op := rfl

theorem applyOp_set {α : Type} (tsOf : α → Int) (expiry : Int)
    (maxSize : Nat) (st : List (Str × α)) (now : Int) (k : Str) (f : Option α) :
    applyOp tsOf expiry maxSize st (CacheOp.set now k f) =
      prefetchStoreG tsOf expiry maxSize false now st k f := rfl

theorem akey_inj : ∀ i j, akey i = akey j → i = j := by
  intro i j h
  have := congrArg List.length h
  simpa [akey] using this

set_option maxRecDepth 10000 in
/-- C3 counterexample: starting from an empty MP4-chunk cache, 501 `set`
operations with distinct keys and fresh timestamps leave the hot-tier map
at 501 entries, exceeding `CACHE_MAX_SIZE = 500` — because
`prefetchMP4Chunk` runs `cleanupCache` *before* inserting, and a cleanup
that finds no expired entries and the map exactly at capacity removes
nothing, so the subsequent insert overshoots by one. -/
theorem C3_counterexample :
    (applyOpsMP4 cexOps []).length = 501 ∧
    CACHE_MAX_SIZE_MP4 < (applyOpsMP4 cexOps []).length ∧
    ¬ (∀ ops : List (CacheOp CacheEntryMP4),
        (applyOpsMP4 ops []).length ≤ CACHE_MAX_SIZE_MP4) := by
  have hbuild := applyOps_buildUp CacheEntryMP4.timestamp CACHE_EXPIRY_MS_MP4
    CACHE_MAX_SIZE_MP4 akey akey_inj centry
  have hsplit : cexOps =
      (List.range 500).map (fun i => CacheOp.set 0 (akey i) (some centry)) ++
      [CacheOp.set 0 (akey 500) (some centry)] := by
    unfold cexOps
    rw [show (501 : Nat) = Nat.succ 500 from rfl, List.range_succ, List.map_append]
    rfl
  have h500 : applyOps CacheEntryMP4.timestamp CACHE_EXPIRY_MS_MP4 CACHE_MAX_SIZE_MP4
      ((List.range 500).map (fun i => CacheOp.set 0 (akey i) (some centry))) [] =
      (List.range 500).map (fun i => (akey i, centry)) :=
    hbuild 500 (by norm_num [CACHE_MAX_SIZE_MP4])
  have hlast : prefetchStoreG CacheEntryMP4.timestamp CACHE_EXPIRY_MS_MP4
      CACHE_MAX_SIZE_MP4 false 0 ((List.range 500).map (fun i => (akey i, centry)))
      (akey 500) (some centry) =
      (List.range 500).map (fun i => (akey i, centry)) ++ [(akey 500, centry)] := by
    apply prefetchStoreG_insert_full
    · rw [show CACHE_MAX_SIZE_MP4 = 500 from rfl]
      simp only [List.length_map, List.length_range]
      omega
    · apply cleanupCacheG_eq_self
      · intro p hp
        obtain ⟨i, _, hpi⟩ := List.mem_map.mp hp
        subst hpi
        show (0 : Int) - centry.timestamp ≤ CACHE_EXPIRY_MS_MP4
        norm_num [centry, CACHE_EXPIRY_MS_MP4]
      · rw [show CACHE_MAX_SIZE_MP4 = 500 from rfl]
        simp only [List.length_map, List.length_range]
        omega
    · rw [lookupKey_eq_none_iff]
      intro p hp
      obtain ⟨i, hi, hpi⟩ := List.mem_map.mp hp
      subst hpi
      intro heq
      have := akey_inj i 500 heq
      have hilt := List.mem_range.mp hi
      omega
  have hfinal : applyOpsMP4 cexOps [] =
      (List.range 500).map (fun i => (akey i, centry)) ++ [(akey 500, centry)] := by
    rw [hsplit]
    unfold applyOpsMP4
    rw [applyOps_append, h500, applyOps_singleton, applyOp_set]
    exact hlast
  have hlen : (applyOpsMP4 cexOps []).length = 501 := by
    rw [hfinal]
    simp only [List.length_append, List.length_map, List.length_range,
      List.length_cons, List.length_nil]
  refine ⟨hlen, ?_, ?_⟩
  · rw [hlen, show CACHE_MAX_SIZE_MP4 = 500 from rfl]
    omega
  · intro hall
    have := hall cexOps
    rw [hlen, show CACHE_MAX_SIZE_MP4 = 500 from rfl] at this
    omega

/-- C3 amended: the hot-tier size after any finite sequence of `set`s
(`prefetchMP4Chunk` stores) interleaved with sweeps, starting from the
empty map, never exceeds `CACHE_MAX_SIZE + 1` (not `CACHE_MAX_SIZE`: a set
against a full map of fresh entries cleans up nothing and then inserts);
every sweep leaves at most `CACHE_MAX_SIZE` entries; and when a sweep finds
the (expiry-filtered) map above capacity it evicts exactly the
oldest-by-timestamp entries down to capacity: the surviving count is
`min aliveCount CACHE_MAX_SIZE` and every evicted entry's timestamp is at
most every survivor's.  Stated for any `maxSize`/`expiry`; the MP4-chunk
cache runs at `(500, 4h)` and the m3u8 segment cache at `(2000, 2h)`. -/
theorem C3_amended_capacity {α : Type} (tsOf : α → Int) (expiry : Int)
    (maxSize : Nat) :
    (∀ ops : List (CacheOp α),
      (applyOps tsOf expiry maxSize ops []).length ≤ maxSize + 1) ∧
    (∀ (now : Int) (st : List (Str × α)),
      (cleanupCacheG tsOf expiry maxSize now st).length ≤ maxSize) ∧
    (∀ (now : Int) (st : List (Str × α)),
      (st.map Prod.fst).Nodup →
      (cleanupCacheG tsOf expiry maxSize now st).length =
        min (expireFilter tsOf expiry now st).length maxSize) ∧
    (∀ (now : Int) (st : List (Str × α)) (p q : Str × α),
      (st.map Prod.fst).Nodup →
      p ∈ expireFilter tsOf expiry now st →
      p ∉ cleanupCacheG tsOf expiry maxSize now st →
      q ∈ cleanupCacheG tsOf expiry maxSize now st →
      tsOf p.2 ≤ tsOf q.2) := by
  refine ⟨?_, ?_, ?_, ?_⟩
  · intro ops
    rcases applyOps_length_le tsOf expiry maxSize ops [] with h | h
    · exact h
    · rw [h]; simp
  · intro now st
    exact cleanupCacheG_length_le tsOf expiry maxSize now st
  · intro now st hnd
    have hnd2 : ((expireFilter tsOf expiry now st).map Prod.fst).Nodup := by
      apply List.Nodup.sublist _ hnd
      exact List.Sublist.map Prod.fst (List.filter_sublist st)
    exact (capTrim_exact tsOf maxSize _ hnd2).1
  · intro now st p q hnd hp hpn hq
    have hnd2 : ((expireFilter tsOf expiry now st).map Prod.fst).Nodup := by
      apply List.Nodup.sublist _ hnd
      exact List.Sublist.map Prod.fst (List.filter_sublist st)
    exact (capTrim_exact tsOf maxSize _ hnd2).2 p hp hpn q hq

/-- Witness for C3 (amended): a two-entry map with capacity 1 sweeps down
to exactly the newest entry, evicting the older one. -/
theorem C3_witness :
    ((wstC3.map Prod.fst).Nodup) ∧
    (cleanupCacheG CacheEntryMP4.timestamp 10 1 0 wstC3).length =
      min (expireFilter CacheEntryMP4.timestamp 10 0 wstC3).length 1 ∧
    (cleanupCacheG CacheEntryMP4.timestamp 10 1 0 wstC3).length = 1 := by
  have h := (C3_amended_capacity CacheEntryMP4.timestamp 10 1).2.2.1 0 wstC3 (by decide)
  refine ⟨by decide, h, ?_⟩
  rw [h]
  decide

theorem hostFilter_some {o : Option URLRec} {h : Str} (hh : hostFilter o = some h) :
    ∃ parsed, o = some parsed ∧ parsed.hostname ≠ [] ∧ h = parsed.href := by
  rcases o with _ | parsed
  · simp [hostFilter] at hh
  · refine ⟨parsed, rfl, ?_, ?_⟩
    · intro hempty
      rw [hostFilter, hempty] at hh
      simp at hh
    · by_cases hempty : parsed.hostname = []
      · rw [hostFilter, hempty] at hh; simp at hh
      · rw [hostFilter, if_neg hempty] at hh
        exact (Option.some.injEq _ _ ▸ hh).symm

/-- C8: `parseURL` without a base.  (i) A reference that already declares
an `http`/`https` scheme (the `/^https?:/i` test) but fails strict parsing
returns `null`.  (ii) A scheme-less reference the pre-parse regex accepts
with no captured scheme is handed to the strict parser with `//` prepended
exactly when not already present, and with scheme `https:` exactly when
the explicitly written port (regex group 4) is the string `443`, `http:`
otherwise.  (iii) Any non-`null` result is the `href` of a strict parse
whose hostname is non-empty. -/
theorem C8_parseURL_scheme_inference :
    (∀ (sp : Str → Option URLRec) (u : Str),
      declaresScheme u = true → sp u = none → parseURLNoBase sp u = none) ∧
    (∀ (sp : Str → Option URLRec) (u : Str) (m4 : Option Str),
      regexMatchURL u = some (none, m4) →
      declaresScheme u = false →
      parseURLNoBase sp u =
        hostFilter (sp
          ((if m4 = some "443".data then "https:".data else "http:".data) ++
           (if begins "//".data u then u else '/' :: '/' :: u)))) ∧
    (∀ (sp : Str → Option URLRec) (u h : Str),
      parseURLNoBase sp u = some h →
      ∃ v parsed, sp v = some parsed ∧ parsed.hostname ≠ [] ∧ h = parsed.href) := by
  refine ⟨?_, ?_, ?_⟩
  · intro sp u hds hsp
    unfold parseURLNoBase
    rcases hm : regexMatchURL u with _ | ⟨m1, m4⟩
    · rfl
    · rcases m1 with _ | s
      · simp [hds]
      · simp [hostFilter, hsp]
  · intro sp u m4 hm hds
    unfold parseURLNoBase
    rw [hm]
    show (if declaresScheme u then none
      else hostFilter (sp ((if m4 = some "443".data then "https:".data else "http:".data) ++
        (if !(begins "//".data u) then '/' :: '/' :: u else u)))) = _
    rw [hds]
    simp only [Bool.false_eq_true, if_false]
    by_cases hb : begins "//".data u = true <;> simp [hb]
  · intro sp u h hres
    unfold parseURLNoBase at hres
    rcases hm : regexMatchURL u with _ | ⟨m1, m4⟩
    · rw [hm] at hres; simp at hres
    · rw [hm] at hres
      rcases m1 with _ | s
      · replace hres : (if declaresScheme u = true then none
            else hostFilter (sp
              ((if m4 = some "443".data then "https:".data else "http:".data) ++
               (if !(begins "//".data u) then '/' :: '/' :: u else u)))) = some h := hres
        by_cases hds : declaresScheme u = true
        · rw [if_pos hds] at hres; simp at hres
        · rw [if_neg hds] at hres
          obtain ⟨parsed, hp, hh, hhref⟩ := hostFilter_some hres
          exact ⟨_, parsed, hp, hh, hhref⟩
      · replace hres : hostFilter (sp u) = some h := hres
        obtain ⟨parsed, hp, hh, hhref⟩ := hostFilter_some hres
        exact ⟨u, parsed, hp, hh, hhref⟩

/-- Witness for C8 at the concrete scheme-less reference `host:443/x`,
with a strict parser that resolves `https://host:443/x`. -/
theorem C8_witness :
    regexMatchURL "host:443/x".data = some (none, some "443".data) ∧
    declaresScheme "host:443/x".data = false ∧
    parseURLNoBase
        (fun s => if s = "https://host:443/x".data
          then some { href := "https://host:443/x".data, hostname := "host".data }
          else none)
        "host:443/x".data = some "https://host:443/x".data := by
  refine ⟨by decide, by decide, ?_⟩
  have h := C8_parseURL_scheme_inference.2.1
    (fun s => if s = "https://host:443/x".data
      then some { href := "https://host:443/x".data, hostname := "host".data }
      else none)
    "host:443/x".data (some "443".data) (by decide) (by decide)
  rw [h]
  decide

theorem nl_not_mem_proxyLine {headersEnc : Str} (absUrl : Str)
    (hhe : '\n' ∉ headersEnc) : '\n' ∉ proxyLine headersEnc absUrl := by
  unfold proxyLine
  intro hmem
  rcases List.mem_append.mp hmem with hmem | h
  case inr => revert h; decide
  rcases List.mem_append.mp hmem with hmem | h
  case inr => exact hhe h
  rcases List.mem_append.mp hmem with hmem | h
  case inr => revert h; decide
  rcases List.mem_append.mp hmem with h | h
  · revert h; decide
  · exact mem_b64encode_ne_nl _ '\n' h rfl

theorem mem_replaceFirst {l t r : Str} {c : Char} (h : c ∈ replaceFirst l t r) :
    c ∈ l ∨ c ∈ r := by
  unfold replaceFirst at h
  rcases hi : indexOfSub l t with _ | i
  · rw [hi] at h; exact Or.inl h
  · rw [hi] at h
    simp only [List.mem_append] at h
    rcases h with (h | h) | h
    · exact Or.inl (List.mem_of_mem_take h)
    · exact Or.inr h
    · exact Or.inl (List.mem_of_mem_drop h)

theorem nl_not_mem_transformKeyLine {headersEnc line : Str}
    (hline : '\n' ∉ line) (hhe : '\n' ∉ headersEnc) :
    '\n' ∉ transformKeyLine headersEnc line := by
  unfold transformKeyLine
  rcases hf : findFirstHttpUrl line with _ | keyUrl
  · exact hline
  · intro hmem
    rcases mem_replaceFirst hmem with h | h
    · exact hline h
    · exact nl_not_mem_proxyLine keyUrl hhe h

theorem nl_not_mem_transformMediaLine {resolve : Str → Option Str}
    {headersEnc line : Str} (hline : '\n' ∉ line) (hhe : '\n' ∉ headersEnc) :
    '\n' ∉ transformMediaLine resolve headersEnc line := by
  unfold transformMediaLine
  by_cases h1 : begins "#".data line = true
  · rw [if_pos h1]
    by_cases h2 : begins "#EXT-X-KEY:".data line = true
    · rw [if_pos h2]
      exact nl_not_mem_transformKeyLine hline hhe
    · rw [if_neg h2]; exact hline
  · rw [if_neg h1]
    by_cases h3 : (trimNonEmpty line && !begins "#".data line) = true
    · rw [if_pos h3]
      rcases hr : resolve line with _ | seg
      · exact hline
      · exact nl_not_mem_proxyLine seg hhe
    · rw [if_neg h3]; exact hline

theorem nl_not_mem_transformMasterLine {resolve : Str → Option Str}
    {headersEnc line : Str} (hline : '\n' ∉ line) (hhe : '\n' ∉ headersEnc) :
    '\n' ∉ transformMasterLine resolve headersEnc line := by
  unfold transformMasterLine
  by_cases h1 : begins "#".data line = true
  · rw [if_pos h1]
    by_cases h2 : begins "#EXT-X-KEY:".data line = true
    · rw [if_pos h2]
      exact nl_not_mem_transformKeyLine hline hhe
    · rw [if_neg h2]
      by_cases h3 : begins "#EXT-X-MEDIA:".data line = true
      · rw [if_pos h3]
        exact nl_not_mem_transformKeyLine hline hhe
      · rw [if_neg h3]; exact hline
  · rw [if_neg h1]
    by_cases h3 : trimNonEmpty line = true
    · rw [if_pos h3]
      rcases hr : resolve line with _ | seg
      · exact hline
      · exact nl_not_mem_proxyLine seg hhe
    · rw [if_neg h3]; exact hline

theorem splitNL_joinNL_map (t : Str → Str) (content : Str)
    (ht : ∀ l, '\n' ∉ l → '\n' ∉ t l) :
    splitNL (joinNL ((splitNL content).map t)) = (splitNL content).map t := by
  unfold splitNL joinNL
  apply splitOnChar_joinC
  · intro hempty
    have := splitOnChar_ne_nil '\n' content
    rw [← List.map_eq_nil_iff.mp hempty] at this
    exact this rfl
  · intro l hl
    obtain ⟨l0, hl0, hl0t⟩ := List.mem_map.mp hl
    subst hl0t
    exact ht l0 (not_mem_of_mem_splitOnChar hl0)

theorem transformMediaLine_passthrough {resolve : Str → Option Str}
    {headersEnc line : Str}
    (h : line = [] ∨ (begins "#".data line = true ∧
      begins "#EXT-X-KEY:".data line = false)) :
    transformMediaLine resolve headersEnc line = line := by
  rcases h with h | ⟨h1, h2⟩
  · subst h; rfl
  · unfold transformMediaLine
    rw [if_pos h1, if_neg (by rw [h2]; simp)]

theorem transformMasterLine_passthrough {resolve : Str → Option Str}
    {headersEnc line : Str}
    (h : line = [] ∨ (begins "#".data line = true ∧
      begins "#EXT-X-KEY:".data line = false ∧
      begins "#EXT-X-MEDIA:".data line = false)) :
    transformMasterLine resolve headersEnc line = line := by
  rcases h with h | ⟨h1, h2, h3⟩
  · subst h; rfl
  · unfold transformMasterLine
    rw [if_pos h1, if_neg (by rw [h2]; simp), if_neg (by rw [h3]; simp)]

/-- C5: the playlist rewrite always yields exactly as many lines
(splitting on `"\n"`) as the input has, and every empty line and every
`#`-line other than `#EXT-X-KEY:` lines (and, in master playlists,
`#EXT-X-MEDIA:` lines) is reproduced unchanged at the same line index.
`headersEnc` is the URI-encoded header JSON, which contains no newline. -/
theorem C5_rewrite_preserves_structure (resolve : Str → Option Str)
    (headersEnc content : Str) (hhe : '\n' ∉ headersEnc) :
    (splitNL (proxyM3U8 resolve headersEnc content)).length =
      (splitNL content).length ∧
    (∀ i line, (splitNL content).get? i = some line →
      (line = [] ∨ (begins "#".data line = true ∧
        begins "#EXT-X-KEY:".data line = false ∧
        (containsSub content "RESOLUTION=".data = true →
          begins "#EXT-X-MEDIA:".data line = false))) →
      (splitNL (proxyM3U8 resolve headersEnc content)).get? i = some line) := by
  by_cases hmaster : containsSub content "RESOLUTION=".data = true
  · have hout : proxyM3U8 resolve headersEnc content =
        joinNL ((splitNL content).map (transformMasterLine resolve headersEnc)) := by
      unfold proxyM3U8
      rw [if_pos hmaster]
    have hsplit : splitNL (proxyM3U8 resolve headersEnc content) =
        (splitNL content).map (transformMasterLine resolve headersEnc) := by
      rw [hout]
      exact splitNL_joinNL_map _ content
        (fun l hl => nl_not_mem_transformMasterLine hl hhe)
    constructor
    · rw [hsplit, List.length_map]
    · intro i line hline hpass
      rw [hsplit, List.get?_eq_getElem?, List.getElem?_map,
        ← List.get?_eq_getElem?, hline]
      simp only [Option.map_some']
      rw [transformMasterLine_passthrough]
      rcases hpass with h | ⟨h1, h2, h3⟩
      · exact Or.inl h
      · exact Or.inr ⟨h1, h2, h3 hmaster⟩
  · have hout : proxyM3U8 resolve headersEnc content =
        joinNL ((splitNL content).map (transformMediaLine resolve headersEnc)) := by
      unfold proxyM3U8
      rw [if_neg hmaster]
    have hsplit : splitNL (proxyM3U8 resolve headersEnc content) =
        (splitNL content).map (transformMediaLine resolve headersEnc) := by
      rw [hout]
      exact splitNL_joinNL_map _ content
        (fun l hl => nl_not_mem_transformMediaLine hl hhe)
    constructor
    · rw [hsplit, List.length_map]
    · intro i line hline hpass
      rw [hsplit, List.get?_eq_getElem?, List.getElem?_map,
        ← List.get?_eq_getElem?, hline]
      simp only [Option.map_some']
      rw [transformMediaLine_passthrough]
      rcases hpass with h | ⟨h1, h2, _⟩
      · exact Or.inl h
      · exact Or.inr ⟨h1, h2⟩

/-- Witness for C5 on the spec's concrete media playlist: 6 input lines,
6 output lines, and the `#EXTM3U` line unchanged at index 0. -/
theorem C5_witness :
    ('\n' ∉ "%7B%7D".data) ∧
    (splitNL (proxyM3U8 (fun l => urlResolve l "http://host/a/index.m3u8".data)
        "%7B%7D".data
        "#EXTM3U\n#EXTINF:10,\nseg1.ts\n#EXTINF:10,\nseg2.ts\n".data)).length =
      (splitNL "#EXTM3U\n#EXTINF:10,\nseg1.ts\n#EXTINF:10,\nseg2.ts\n".data).length ∧
    (splitNL (proxyM3U8 (fun l => urlResolve l "http://host/a/index.m3u8".data)
        "%7B%7D".data
        "#EXTM3U\n#EXTINF:10,\nseg1.ts\n#EXTINF:10,\nseg2.ts\n".data)).get? 0 =
      some "#EXTM3U".data := by
  refine ⟨by decide, ?_, ?_⟩
  · exact (C5_rewrite_preserves_structure
      (fun l => urlResolve l "http://host/a/index.m3u8".data) "%7B%7D".data
      "#EXTM3U\n#EXTINF:10,\nseg1.ts\n#EXTINF:10,\nseg2.ts\n".data (by decide)).1
  · exact (C5_rewrite_preserves_structure
      (fun l => urlResolve l "http://host/a/index.m3u8".data) "%7B%7D".data
      "#EXTM3U\n#EXTINF:10,\nseg1.ts\n#EXTINF:10,\nseg2.ts\n".data (by decide)).2
      0 "#EXTM3U".data (by decide) (by decide)

/-- C4: every non-empty, non-`#` media-playlist line whose resolution
against the base succeeds is replaced by the proxy line
`/s?u=<base64(resolved)>&headers=<headersEnc>&lb=local`, whose `u`
parameter base64-decodes back to exactly the resolved URL (for ASCII
URLs, where `Buffer.from`'s UTF-8 agrees with the char codes); on the
spec's scenario playlist with base `http://host/a/index.m3u8`, the lines
`seg1.ts` and `seg2.ts` become distinct proxy lines decodable to
`http://host/a/seg1.ts` and `http://host/a/seg2.ts`. -/
theorem C4_segment_rewrite_decodes :
    (∀ (resolve : Str → Option Str) (headersEnc line r : Str),
      trimNonEmpty line = true →
      begins "#".data line = false →
      resolve line = some r →
      transformMediaLine resolve headersEnc line = proxyLine headersEnc r) ∧
    (∀ r : Str, (∀ c ∈ r, c.toNat < 256) →
      bytesToStr (b64decode (b64encode (strBytes r))) = r) ∧
    ((splitNL (proxyM3U8 (fun l => urlResolve l "http://host/a/index.m3u8".data)
        "%7B%7D".data
        "#EXTM3U\n#EXTINF:10,\nseg1.ts\n#EXTINF:10,\nseg2.ts\n".data)).get? 2 =
      some (proxyLine "%7B%7D".data "http://host/a/seg1.ts".data) ∧
     (splitNL (proxyM3U8 (fun l => urlResolve l "http://host/a/index.m3u8".data)
        "%7B%7D".data
        "#EXTM3U\n#EXTINF:10,\nseg1.ts\n#EXTINF:10,\nseg2.ts\n".data)).get? 4 =
      some (proxyLine "%7B%7D".data "http://host/a/seg2.ts".data) ∧
     proxyLine "%7B%7D".data "http://host/a/seg1.ts".data ≠
       proxyLine "%7B%7D".data "http://host/a/seg2.ts".data ∧
     bytesToStr (b64decode (b64encode (strBytes "http://host/a/seg1.ts".data))) =
       "http://host/a/seg1.ts".data ∧
     bytesToStr (b64decode (b64encode (strBytes "http://host/a/seg2.ts".data))) =
       "http://host/a/seg2.ts".data) := by
  refine ⟨?_, ?_, ?_⟩
  · intro resolve headersEnc line r h1 h2 hr
    unfold transformMediaLine
    rw [if_neg (by rw [h2]; simp), if_pos (by rw [h1, h2]; rfl)]
    simp only [hr]
  · intro r hr
    have hb : ∀ x ∈ strBytes r, x < 256 := by
      intro x hx
      obtain ⟨c, hc, hcx⟩ := List.mem_map.mp hx
      subst hcx
      exact hr c hc
    rw [b64decode_b64encode _ hb, bytesToStr_strBytes]
  · refine ⟨by decide, by decide, by decide, by decide, by decide⟩

/-- Witness for C4 at the concrete line `seg1.ts` against base
`http://host/a/index.m3u8`. -/
theorem C4_witness :
    trimNonEmpty "seg1.ts".data = true ∧
    begins "#".data "seg1.ts".data = false ∧
    urlResolve "seg1.ts".data "http://host/a/index.m3u8".data =
      some "http://host/a/seg1.ts".data ∧
    transformMediaLine (fun l => urlResolve l "http://host/a/index.m3u8".data)
        "%7B%7D".data "seg1.ts".data =
      proxyLine "%7B%7D".data "http://host/a/seg1.ts".data ∧
    (∀ c ∈ "http://host/a/seg1.ts".data, c.toNat < 256) ∧
    bytesToStr (b64decode (b64encode (strBytes "http://host/a/seg1.ts".data))) =
      "http://host/a/seg1.ts".data := by
  refine ⟨by decide, by decide, by decide, ?_, by decide, ?_⟩
  · exact C4_segment_rewrite_decodes.1
      (fun l => urlResolve l "http://host/a/index.m3u8".data) "%7B%7D".data
      "seg1.ts".data "http://host/a/seg1.ts".data (by decide) (by decide) (by decide)
  · exact C4_segment_rewrite_decodes.2.1 "http://host/a/seg1.ts".data (by decide)

end SimpleProxy
